import Mathlib

/-!
Verification of the CMDread line-editing and expansion engine (src/edit.c)
against its natural-language specification.

The engine's wide characters (WCHAR) are modelled as Lean `Char`; a line of
text (the C `Line` structure: a pointer plus a length) is a `List Char`; the
global capacity `max` is passed explicitly.  The doubly-linked history ring
with its sentinel node is modelled as a `List (List Char)` holding the
entries oldest first; the sentinel is the implicit "no position" and the
global counter `histsize` is the list length (the C code increments and
decrements it in lock-step with every link/unlink).  `malloc` results are
modelled, where a claim depends on them, by an explicit `alloc : Bool`
oracle for the single allocation a function performs.
-/

namespace CMDread

/-- ESCAPE: character to treat next character literally (src/edit.c:181). -/
def ESCAPE : Char := '^'

/-- CMDSEP: character used to separate multiple commands (src/edit.c:182). -/
def CMDSEP : Char := Char.ofNat 19

/-- VARIABLE: character used for symbol and variable subst (src/edit.c:183). -/
def VARIABLE : Char := '%'

/-- isblank macro: space or tab (src/edit.c:618). -/
def isblank (c : Char) : Bool := c = ' ' || c = '\t'

/-- DEF_TERM: definition delimiter list (src/edit.c:195). -/
def DEF_TERM : List Char := [' ', '\t', '<', '|', '>', '/']

/-- BRACE_TERM: brace expansion separators (src/edit.c:191). -/
def BRACE_TERM : List Char := [' ', '\t', ',', ';', '+']

/-- BRACE_STOP: brace expansion terminators (src/edit.c:192). -/
def BRACE_STOP : List Char := ['<', '|', '>', '&']

/-- BRACE_ESCAPE: escaped brace expansion characters (src/edit.c:193). -/
def BRACE_ESCAPE : List Char := ['{', '}', ',', ESCAPE]

/-- VAR_ESCAPE: escaped variable characters (src/edit.c:197). -/
def VAR_ESCAPE : List Char := [VARIABLE, ESCAPE]

/-- ARG_ESCAPE: escaped argument characters (src/edit.c:198). -/
def ARG_ESCAPE : List Char := [VARIABLE, '*', ESCAPE]

/-- Loop of skip_blank; position strictly advances and stays below the
length, so length + 1 fuel units suffice. -/
def skip_blank_go (l : List Char) : Nat → Nat → Nat
  | pos, 0 => pos
  | pos, fuel + 1 =>
    if pos < l.length ∧ isblank (l.getD pos ' ') then
      skip_blank_go l (pos + 1) fuel
    else pos

/-- skip_blank: position of the first non-blank from pos (src/edit.c:3969). -/
def skip_blank (l : List Char) (pos : Nat) : Nat :=
  skip_blank_go l pos (l.length + 1)

/-- Loop of skip_nonblank; fuel as for skip_blank_go. -/
def skip_nonblank_go (l : List Char) : Nat → Nat → Nat
  | pos, 0 => pos
  | pos, fuel + 1 =>
    if pos < l.length ∧ ¬ isblank (l.getD pos ' ') then
      skip_nonblank_go l (pos + 1) fuel
    else pos

/-- skip_nonblank: position of the first blank from pos (src/edit.c:3979). -/
def skip_nonblank (l : List Char) (pos : Nat) : Nat :=
  skip_nonblank_go l pos (l.length + 1)

/-- Loop of skip_nondelim; fuel as for skip_blank_go. -/
def skip_nondelim_go (l : List Char) : Nat → Nat → Nat
  | pos, 0 => pos
  | pos, fuel + 1 =>
    if pos < l.length ∧ ¬ (l.getD pos ' ') ∈ DEF_TERM then
      skip_nondelim_go l (pos + 1) fuel
    else pos

/-- skip_nondelim: position of the first DEF_TERM delimiter from pos
(src/edit.c:3988). -/
def skip_nondelim (l : List Char) (pos : Nat) : Nat :=
  skip_nondelim_go l pos (l.length + 1)

/-- Number of consecutive backslashes immediately before position pos. -/
def backslash_run (l : List Char) (pos : Nat) : Nat :=
  ((l.take pos).reverse.takeWhile (fun c => c = '\\')).length

/-- is_quote: the character at pos is a double quote that is not escaped by
an odd number of preceding backslashes (src/edit.c:3997).  The C loop starts
with lit = TRUE and toggles it once per backslash, so the result is "quote
character and evenly many backslashes before it". -/
def is_quote (l : List Char) (pos : Nat) : Bool :=
  pos < l.length && l.getD pos ' ' = '"' && backslash_run l pos % 2 = 0

/-- Sign-only model of the C runtime's _wcsnicmp: three-way case-insensitive
comparison of the first n characters; a list that ends early contributes the
NUL terminator, which is below every character that occurs in a line. -/
def wcsnicmp : List Char → List Char → Nat → Int
  | _, _, 0 => 0
  | [], [], _ + 1 => 0
  | [], _ :: _, _ + 1 => -1
  | _ :: _, [], _ + 1 => 1
  | a :: as, b :: bs, n + 1 =>
    if a.toLower = b.toLower then wcsnicmp as bs n
    else if a.toLower < b.toLower then -1 else 1

-- ---------------------------- Line manipulation ----------------------------
-- The buffer operations mutate the global `line` (capacity `max`); each is
-- modelled as a function from the line to the new line.  copy_chars,
-- insert_chars and replace_chars also report whether they invoked bell()
-- (the audible alert; the actual sound is further gated by option.silent,
-- src/edit.c:3961).  set_display_marks only maintains the redraw span and
-- has no effect on the text, so it is not modelled.

/-- copy_chars: set the line to str, truncated to the capacity with an
audible alert if it does not fit (src/edit.c:662). -/
def copy_chars (max : Nat) (str : List Char) : List Char × Bool :=
  if str.length > max then (str.take max, true) else (str, false)

/-- remove_chars: remove cnt characters starting from pos (src/edit.c:677).
Callers guarantee pos + cnt ≤ length. -/
def remove_chars (l : List Char) (pos cnt : Nat) : List Char :=
  l.take pos ++ l.drop (pos + cnt)

/-- insert_chars: insert str (cnt = str.length characters) at pos, truncating
to the capacity with an audible alert if the result would not fit
(src/edit.c:686).  Callers guarantee pos ≤ length. -/
def insert_chars (max : Nat) (l : List Char) (pos : Nat) (str : List Char) :
    List Char × Bool :=
  let bell := l.length + str.length > max
  let cnt := if bell then max - l.length else str.length
  (l.take pos ++ str.take cnt ++ l.drop pos, bell)

/-- replace_chars: replace old characters at pos with str (cnt = str.length
characters) (src/edit.c:701).  Callers guarantee pos + old ≤ length. -/
def replace_chars (max : Nat) (l : List Char) (pos old : Nat)
    (str : List Char) : List Char × Bool :=
  if old ≥ str.length then
    (l.take pos ++ str ++ l.drop (pos + old), false)
  else
    let l1 := l.take pos ++ str.take old ++ l.drop (pos + old)
    insert_chars max l1 (pos + old) (str.drop old)

-- ------------------------------- History -----------------------------------

/-- add_to_history: add the line to the history (entries oldest first).
If the line already exists (matched case sensitively) it is unlinked and
re-linked at the most-recent end; otherwise, when the history is at the
configured maximum, the oldest entry is evicted, and then a new record is
allocated (alloc is the outcome of that malloc) and appended
(src/edit.c:1608).  The C scan runs from the most recent entry backwards, so
the matched entry is the last occurrence. -/
def add_to_history (alloc : Bool) (min_length histmax : Nat)
    (txt : List Char) (entries : List (List Char)) : List (List Char) :=
  if txt.length < min_length then entries
  else if txt ∈ entries then ((entries.reverse.erase txt).reverse) ++ [txt]
  else
    let e := if histmax ≠ 0 ∧ entries.length = histmax
             then entries.drop 1 else entries
    if alloc then e ++ [txt] else e

/-- A position in the history ring: `none` is the sentinel node, `some i`
is the i-th entry, oldest first. -/
abbrev HPos := Option Nat

/-- Successor in the history ring: sentinel.next is the oldest entry, the
newest entry's next is the sentinel. -/
def ring_next (n : Nat) : HPos → HPos
  | none => if n = 0 then none else some 0
  | some i => if i + 1 < n then some (i + 1) else none

/-- Predecessor in the history ring: sentinel.prev is the newest entry. -/
def ring_prev (n : Nat) : HPos → HPos
  | none => if n = 0 then none else some (n - 1)
  | some i => if i = 0 then none else some (i - 1)

/-- Text stored at a ring position; the sentinel holds the constant empty
line (src/edit.c:586). -/
def ring_line (entries : List (List Char)) : HPos → List Char
  | none => []
  | some i => entries.getD i []

/-- The match test of search_history at one ring node: the node's length is
at least len and its first len characters equal the buffer's first len
characters ignoring case (src/edit.c:1653). -/
def hist_match (entries : List (List Char)) (buf : List Char) (len : Nat)
    (p : HPos) : Bool :=
  (ring_line entries p).length ≥ len &&
    wcsnicmp (ring_line entries p) buf len = 0

/-- The do-while loop of search_history: step, test, stop when found or when
back at the starting node (src/edit.c:1650). -/
def search_history_go (entries : List (List Char)) (buf : List Char)
    (len : Nat) (back : Bool) (start : HPos) : HPos → Nat → Option HPos
  | _, 0 => none
  | h, fuel + 1 =>
    let h1 := if back then ring_prev entries.length h
              else ring_next entries.length h
    if hist_match entries buf len h1 then some h1
    else if h1 = start then none
    else search_history_go entries buf len back start h1 fuel

/-- search_history: find the first len characters of the buffer in the
history, ignoring case, scanning from the node after (before, if back) hist
and wrapping once; returns the matching node or none for NULL
(src/edit.c:1644).  The ring has entries.length + 1 nodes, so that much fuel
makes the model total. -/
def search_history (entries : List (List Char)) (buf : List Char) (len : Nat)
    (back : Bool) (hist : HPos) : Option HPos :=
  search_history_go entries buf len back hist hist (entries.length + 1)

/-- Case-insensitive substring test used by execute_delh: some offset end
with 0 ≤ end ≤ hay.length - needle.length matches (src/edit.c:3136). -/
def contains_nicase (hay needle : List Char) : Bool :=
  needle.length ≤ hay.length &&
    (List.range (hay.length - needle.length + 1)).any
      (fun off => wcsnicmp (hay.drop off) needle needle.length = 0)

/-- execute_delh: delete history lines containing the argument text
(case-insensitively), after first removing the most recent entry — the DELH
command line itself; with no argument only that removal happens
(src/edit.c:3122).  l is the command line, pos the argument position. -/
def execute_delh (entries : List (List Char)) (l : List Char) (pos : Nat) :
    List (List Char) :=
  let e := entries.dropLast
  if pos = l.length then e
  else e.filter (fun h => ¬ contains_nicase h (l.drop pos))

-- ------------------------------ Definitions --------------------------------

/-- A definition record (src/edit.c:131): name plus its list of text lines
(the attached LineList; [] models a NULL line pointer). -/
structure Define where
  name : List Char
  line : List (List Char)
deriving DecidableEq, Repr

/-- A definition list (symbols, macro texts or associations), head first. -/
abbrev Store := List Define

/-- The name comparison of find_define: stored length equals cnt and the
first cnt characters match ignoring case (src/edit.c:3686). -/
def name_match (d : Define) (nm : List Char) : Bool :=
  d.name.length = nm.length && wcsnicmp d.name nm nm.length = 0

/-- find_define: locate nm in the list; on success the entry is moved to the
head (recency promotion, src/edit.c:3681).  The model returns the found
entry together with the list without it; the promoted list is the entry
consed back on. -/
def find_define : Store → List Char → Option (Define × Store)
  | [], _ => none
  | d :: rest, nm =>
    if name_match d nm then some (d, rest)
    else match find_define rest nm with
         | none => none
         | some (e, rest2) => some (e, d :: rest2)

/-- add_define: allocate a new definition with the given name and a NULL
line list and make it the head; on allocation failure the list is unchanged
and none is returned (src/edit.c:3663). -/
def add_define (alloc : Bool) (st : Store) (nm : List Char) :
    Option Define × Store :=
  if alloc then (some ⟨nm, []⟩, (⟨nm, []⟩ : Define) :: st) else (none, st)

/-- del_define: remove (free) the head of the list (src/edit.c:3725). -/
def del_define (st : Store) : Store := st.tail

/-- ENDM: the string that ends a multi-line macro definition
(src/edit.c:527). -/
def ENDM : List Char := ['e', 'n', 'd', 'm']

/-- Test of the multi-line defm loop: the line's first token has exactly the
length of ENDM and matches it ignoring case (src/edit.c:3014). -/
def is_endm (l : List Char) : Bool :=
  let pos := skip_blank l 0
  let e := skip_nonblank l pos
  e - pos = ENDM.length && wcsnicmp (l.drop pos) ENDM ENDM.length = 0

/-- execute_defs: define a symbol (src/edit.c:3033).  Any macro of the same
name is deleted first; an existing symbol is redefined in place (promoted to
the head with its content replaced); a definition without text deletes the
symbol.  l is the command line, pos the position after the command word.
Allocations are modelled as succeeding. -/
def execute_defs (syms macs : Store) (l : List Char) (pos : Nat) :
    Store × Store :=
  if pos = l.length then (syms, macs)
  else
    let e := skip_nondelim l pos
    if e < l.length ∧ ¬ isblank (l.getD e ' ') then (syms, macs)
    else
      let nm := (l.drop pos).take (e - pos)
      let macs1 := match find_define macs nm with
                   | some (_, rest) => rest
                   | none => macs
      let def_ := skip_blank l e
      match find_define syms nm with
      | some (d, rest) =>
        if def_ = l.length then (rest, macs1)
        else ((⟨d.name, [l.drop def_]⟩ : Define) :: rest, macs1)
      | none =>
        if def_ = l.length then (syms, macs1)
        else ((⟨nm, [l.drop def_]⟩ : Define) :: syms, macs1)

/-- execute_defm: define a macro (src/edit.c:2958).  Any symbol of the same
name is deleted first; an existing macro is redefined in place.  With inline
text the definition is that single line; without it, subsequent input lines
up to the first ENDM line become the definition (inputs), and if there are
none the entry is deleted again.  Allocations are modelled as succeeding,
and the top-level call has def_macro = FALSE. -/
def execute_defm (syms macs : Store) (l : List Char) (pos : Nat)
    (inputs : List (List Char)) : Store × Store :=
  let e := skip_nondelim l pos
  if e < l.length ∧ ¬ isblank (l.getD e ' ') then (syms, macs)
  else
    let nm := (l.drop pos).take (e - pos)
    let syms1 := match find_define syms nm with
                 | some (_, rest) => rest
                 | none => syms
    let nmrest : List Char × Store :=
      match find_define macs nm with
      | some (d, rest) => (d.name, rest)
      | none => (nm, macs)
    let def_ := skip_blank l e
    if def_ ≠ l.length then
      (syms1, (⟨nmrest.1, [l.drop def_]⟩ : Define) :: nmrest.2)
    else
      let lines := inputs.takeWhile (fun li => ¬ is_endm li)
      if lines.isEmpty then (syms1, nmrest.2)
      else (syms1, (⟨nmrest.1, lines⟩ : Define) :: nmrest.2)

-- --------------------------- Internal commands -----------------------------

/-- A config-table entry (src/edit.c:90): a name and the associated function
value; internal-command handlers are identified by their table index here
rather than by a function pointer. -/
structure Cfg where
  name : List Char
  func : Int
deriving DecidableEq, Repr

/-- The binary search loop of search_cfg (src/edit.c:3865): beg and e are
the current index range (e is inclusive and may go below beg).  One fuel
unit per iteration; the range shrinks every step, so tbl.length + 2 units
suffice. -/
def search_cfg_go (name : List Char) (cnt : Nat) (tbl : List Cfg) :
    Int → Int → Nat → Int
  | _, _, 0 => -1
  | beg, e, fuel + 1 =>
    if e < beg then -1
    else
      let mid := (beg + e) / 2
      let entry := tbl.getD mid.toNat ⟨[], -1⟩
      let rc := wcsnicmp entry.name name cnt
      if rc = 0 ∧ entry.name.drop cnt = [] then entry.func
      else if rc ≥ 0 then search_cfg_go name cnt tbl beg (mid - 1) fuel
      else search_cfg_go name cnt tbl (mid + 1) e fuel

/-- search_cfg: binary search of a sorted config table for the cnt-character
name; -1 if not found (src/edit.c:3865). -/
def search_cfg (name : List Char) (cnt : Nat) (tbl : List Cfg) : Int :=
  search_cfg_go name cnt tbl 0 ((tbl.length : Int) - 1) (tbl.length + 2)

/-- The internal command table, sorted by name (src/edit.c:499); function
pointers are modelled by the table index. -/
def internal : List Cfg :=
  [⟨['d', 'e', 'f', 'a'], 0⟩,  ⟨['d', 'e', 'f', 'k'], 1⟩,
   ⟨['d', 'e', 'f', 'm'], 2⟩,  ⟨['d', 'e', 'f', 's'], 3⟩,
   ⟨['d', 'e', 'l', 'a'], 4⟩,  ⟨['d', 'e', 'l', 'h'], 5⟩,
   ⟨['d', 'e', 'l', 'k'], 6⟩,  ⟨['d', 'e', 'l', 'm'], 7⟩,
   ⟨['d', 'e', 'l', 's'], 8⟩,  ⟨['l', 's', 't', 'a'], 9⟩,
   ⟨['l', 's', 't', 'h'], 10⟩, ⟨['l', 's', 't', 'k'], 11⟩,
   ⟨['l', 's', 't', 'm'], 12⟩, ⟨['l', 's', 't', 's'], 13⟩,
   ⟨['r', 's', 't', 'a'], 14⟩, ⟨['r', 's', 't', 'h'], 15⟩,
   ⟨['r', 's', 't', 'm'], 16⟩, ⟨['r', 's', 't', 's'], 17⟩]

/-- CMD_LEN: required length of an internal command token (src/edit.c:522). -/
def CMD_LEN : Nat := 4

/-- Recognition part of internal_cmd (src/edit.c:2721): the first
whitespace-delimited token has exactly CMD_LEN characters and occurs in the
internal table.  When this is true the C function un-escapes the line,
invokes the handler (modelled per command by the execute_ functions) and
returns TRUE, upon which the read loop of MyReadConsoleW fetches another
line instead of returning this one to the host (src/edit.c:4284). -/
def internal_cmd_rec (l : List Char) : Bool :=
  let pos := skip_blank l 0
  let cnt := skip_nonblank l pos - pos
  if cnt ≠ CMD_LEN then false
  else search_cfg (l.drop pos) cnt internal ≠ -1

-- ------------------------------ get_string ---------------------------------

/-- Scan loop of get_string (src/edit.c:4023).  State: the line, the scan
position, the in-quote flag, whether an opening quote was placed (oq), the
position of the latest closing quote (cq) and the found_quote result.  With
keep = FALSE embedded quotes are migrated outward as the C code does with
its memmoves.  Each iteration advances the position or shortens the line,
so 2·length + 2 fuel units make the model total. -/
def get_string_go (keep : Bool) (start : Nat) :
    List Char → Nat → Bool → Bool → Option Nat → Bool → Nat →
    List Char × Nat × Bool × Bool × Option Nat
  | l, pos, _, oq, cq, fq, 0 => (l, pos, fq, oq, cq)
  | l, pos, quote, oq, cq, fq, fuel + 1 =>
    if pos ≥ l.length then (l, pos, fq, oq, cq)
    else if quote then
      if is_quote l pos then
        if keep then get_string_go keep start l (pos + 1) false oq cq fq fuel
        else
          match cq with
          | some c =>
            get_string_go keep start (remove_chars l c 1) pos false oq
              (some (pos - 1)) fq fuel
          | none =>
            get_string_go keep start l (pos + 1) false oq (some pos) fq fuel
      else get_string_go keep start l (pos + 1) true oq cq fq fuel
    else if is_quote l pos then
      if keep then get_string_go keep start l (pos + 1) true oq cq true fuel
      else if oq then
        get_string_go keep start (remove_chars l pos 1) pos true oq cq true
          fuel
      else if pos ≠ start then
        get_string_go keep start
          (l.take start ++ ['"'] ++ (l.drop start).take (pos - start) ++
            l.drop (pos + 1))
          (pos + 1) true true cq true fuel
      else get_string_go keep start l (pos + 1) true true cq true fuel
    else if isblank (l.getD pos ' ') then (l, pos, fq, oq, cq)
    else get_string_go keep start l (pos + 1) quote oq cq fq fuel

/-- get_string: retrieve the argument starting from pos0 (src/edit.c:4017).
Returns (start, cnt, line, found_quote).  With keep = FALSE embedded quotes
are made surrounding and excluded from the string; the closing quote is
shifted to the scan end afterwards. -/
def get_string (keep : Bool) (l : List Char) (pos0 : Nat) :
    Nat × Nat × List Char × Bool :=
  let start := skip_blank l pos0
  let r := get_string_go keep start l start false false none false
             (2 * l.length + 2)
  let l1 := r.1
  let pos := r.2.1
  let fq := r.2.2.1
  let oq := r.2.2.2.1
  let cq := r.2.2.2.2
  if keep then (start, pos - start, l1, fq)
  else
    let start1 := if oq then start + 1 else start
    match cq with
    | none => (start1, pos - start1, l1, fq)
    | some c =>
      let p := pos - 1
      if c = p then (start1, p - start1, l1, fq)
      else
        (start1, p - start1,
         l1.take c ++ (l1.drop (c + 1)).take (p - c) ++ ['"'] ++
           l1.drop (p + 1), fq)

-- ------------------------------ un_escape ----------------------------------

/-- Scan loop of un_escape (src/edit.c:4090).  With unq = none every
non-quoted escape character followed by another character is removed; with
unq = some u only escapes of characters in u are removed, and only inside
quotes.  Position strictly advances, so length + 1 fuel units suffice. -/
def un_escape_go (unq : Option (List Char)) :
    List Char → Nat → Bool → Nat → List Char
  | l, _, _, 0 => l
  | l, pos, quote, fuel + 1 =>
    if pos ≥ l.length then l
    else if quote then
      if is_quote l pos then un_escape_go unq l (pos + 1) false fuel
      else if (match unq with
               | some u => l.getD pos ' ' = ESCAPE && decide (pos + 1 < l.length) &&
                           u.contains (l.getD (pos + 1) ' ')
               | none => false) then
        un_escape_go unq (remove_chars l pos 1) (pos + 1) true fuel
      else un_escape_go unq l (pos + 1) true fuel
    else if is_quote l pos then un_escape_go unq l (pos + 1) true fuel
    else if unq = none ∧ l.getD pos ' ' = ESCAPE ∧ pos + 1 < l.length then
      un_escape_go unq (remove_chars l pos 1) (pos + 1) false fuel
    else un_escape_go unq l (pos + 1) false fuel

/-- un_escape: remove escape characters from the line, as selected by unq
(src/edit.c:4090); the initial memchr pre-check returns the line unchanged
when it contains no ESCAPE at all. -/
def un_escape (unq : Option (List Char)) (l : List Char) : List Char :=
  if ¬ l.contains ESCAPE then l
  else un_escape_go unq l 0 false (l.length + 1)

-- ----------------------------- expand_vars ---------------------------------

/-- Scan loop of expand_vars (src/edit.c:2772).  start is the position just
after the opening VARIABLE of a candidate token (none when no candidate is
open).  envf models GetEnvironmentVariableW: the variable's value, with []
for an undefined (or empty) variable; it is consulted only when envflag is
true.  A resolved token is replaced in place; an unresolved one leaves its
closing VARIABLE as the next candidate's opener.  The position strictly
advances and the length stays within the capacity, so max + length + 2 fuel
units suffice. -/
def expand_vars_go (envflag : Bool) (envf : List Char → List Char)
    (max : Nat) : List Char → Store → Nat → Option Nat → Nat →
    List Char × Store
  | l, syms, _, _, 0 => (l, syms)
  | l, syms, pos, start, fuel + 1 =>
    if pos ≥ l.length then (l, syms)
    else if l.getD pos ' ' = ESCAPE then
      expand_vars_go envflag envf max l syms (pos + 2) start fuel
    else if l.getD pos ' ' = VARIABLE then
      match start with
      | none =>
        expand_vars_go envflag envf max l syms (pos + 1) (some (pos + 1)) fuel
      | some s =>
        let cnt := pos - s
        let nm := (l.drop s).take cnt
        let v0 := if envflag then envf nm else []
        let vs : List Char × Store :=
          if v0 = [] then
            match find_define syms nm with
            | some (d, rest) => (d.line.headD [], d :: rest)
            | none => ([], syms)
          else (v0, syms)
        if vs.1 ≠ [] then
          expand_vars_go envflag envf max
            (replace_chars max l (s - 1) (cnt + 2) vs.1).1 vs.2 (pos + 1)
            none fuel
        else
          expand_vars_go envflag envf max l vs.2 (pos + 1) (some (pos + 1))
            fuel
    else expand_vars_go envflag envf max l syms (pos + 1) start fuel

/-- expand_vars: search for words between two VARIABLE characters and
replace each by its environment value (if envflag and defined) or symbol
definition, finishing with un_escape of VAR_ESCAPE (src/edit.c:2765).
The submitted-line pipeline calls this with envflag = FALSE
(src/edit.c:4286); the interactive VarSubst key uses TRUE
(src/edit.c:1378). -/
def expand_vars (envflag : Bool) (envf : List Char → List Char) (max : Nat)
    (syms : Store) (l : List Char) : List Char × Store :=
  let r := expand_vars_go envflag envf max l syms 0 none (max + l.length + 2)
  (un_escape (some VAR_ESCAPE) r.1, r.2)

-- -------------------------------- dosify -----------------------------------

/-- Body of dosify (src/edit.c:2414): prev is the previous character after
its own conversion (the C code reads back the already-updated buffer), the
blank lookahead reads the not-yet-converted next character. -/
def dosify_go : Option Char → List Char → List Char
  | _, [] => []
  | prev, c :: rest =>
    if c = '/' ∨ c = '\\' then
      let c1 := if ((rest.isEmpty || isblank (rest.headD ' ')) &&
                   (match prev with
                    | some p => decide (p ≠ ':') && ! isblank p
                    | none => false))
                then ' ' else '\\'
      c1 :: dosify_go (some c1) rest
    else if (decide (c = '-') && (match prev with
                                  | some p => isblank p
                                  | none => false)) then
      '/' :: dosify_go (some '/') rest
    else c :: dosify_go (some c) rest

/-- dosify: convert '/' to '\', a slash in a blank context to a blank, and a
leading '-' after a blank to '/' (src/edit.c:2414). -/
def dosify (l : List Char) : List Char := dosify_go none l

-- ------------------------------ multi_cmd ----------------------------------

/-- Scan loop of multi_cmd (src/edit.c:2383): find the first
unquoted/unescaped CMDSEP; everything after it becomes the queued mcmd text
(some [] models the (PWSTR)1 sentinel for an empty remainder) and the line
is chopped before the separator.  alloc is the outcome of the new_txt
allocation; on failure line and mcmd are left untouched. -/
def multi_cmd_go (alloc : Bool) :
    List Char → Option (List Char) → Nat → Bool → Nat →
    List Char × Option (List Char)
  | l, mcmd, _, _, 0 => (l, mcmd)
  | l, mcmd, pos, quote, fuel + 1 =>
    if pos ≥ l.length then (l, mcmd)
    else if quote then
      if l.getD pos ' ' = '"' then multi_cmd_go alloc l mcmd (pos + 1) false fuel
      else multi_cmd_go alloc l mcmd (pos + 1) true fuel
    else if l.getD pos ' ' = '"' then
      multi_cmd_go alloc l mcmd (pos + 1) true fuel
    else if l.getD pos ' ' = ESCAPE then
      multi_cmd_go alloc l mcmd (pos + 2) quote fuel
    else if l.getD pos ' ' = CMDSEP then
      if l.length - (pos + 1) = 0 then (l.take pos, some [])
      else if alloc then (l.take pos, some (l.drop (pos + 1)))
      else (l, mcmd)
    else multi_cmd_go alloc l mcmd (pos + 1) quote fuel

/-- multi_cmd: split off everything after the first unquoted/unescaped
CMDSEP into the multiple-command buffer (src/edit.c:2374); the initial
memchr pre-check leaves everything unchanged when no CMDSEP occurs. -/
def multi_cmd (alloc : Bool) (l : List Char) (mcmd : Option (List Char)) :
    List Char × Option (List Char) :=
  if ¬ l.contains CMDSEP then (l, mcmd)
  else multi_cmd_go alloc l mcmd 0 false (l.length + 1)

-- --------------------------- Brace expansion -------------------------------

/-- Opening-brace scan of brace_expansion (src/edit.c:2464): walk toward the
next unescaped brace, tracking the quote parity and, outside quotes, the
latest separator (term) and the prepend start.  Returns the brace position
with the state at it, or none at the end of the line.  Position strictly
advances, one fuel unit per step; length + 2 units suffice. -/
def bx_find_open (l : List Char) :
    Nat → Bool → Char → Nat → Nat → Option (Nat × Bool × Char × Nat)
  | _, _, _, _, 0 => none
  | pos, quote, term, prepos, fuel + 1 =>
    if l.length ≤ pos then none
    else
      let q1 := if is_quote l pos then ! quote else quote
      let c := l.getD pos ' '
      if c = ESCAPE then bx_find_open l (pos + 2) q1 term prepos fuel
      else if c = '{' then some (pos, q1, term, prepos)
      else if ! q1 && BRACE_TERM.contains c then
        bx_find_open l (pos + 1) q1 c (pos + 1) fuel
      else if ! q1 && BRACE_STOP.contains c then
        bx_find_open l (pos + 1) q1 term (pos + 1) fuel
      else bx_find_open l (pos + 1) q1 term prepos fuel

/-- Result of the item scan of brace_expansion: a quoted item under a quoted
prepend aborts (src/edit.c:2500), running off the end leaves the count
unbalanced (src/edit.c:2515), otherwise the matching close brace is found
with the accumulated top-level-comma flag and the item-quote state. -/
inductive BxScan where
  | abortq
  | unbalanced
  | closed (cpos : Nat) (comma : Bool) (q1 : Bool)
deriving DecidableEq, Repr

/-- Item scan of brace_expansion (src/edit.c:2490): from just after the
opening brace, find the matching close, noting any comma at nesting count 1
outside item quotes.  One fuel unit per step. -/
def bx_scan_items (l : List Char) (quote : Bool) :
    Nat → Bool → Int → Bool → Nat → BxScan
  | _, _, _, _, 0 => .unbalanced
  | pos, q1, count, comma, fuel + 1 =>
    if l.length ≤ pos then .unbalanced
    else if q1 then
      if is_quote l pos then bx_scan_items l quote (pos + 1) false count comma fuel
      else bx_scan_items l quote (pos + 1) true count comma fuel
    else if is_quote l pos then
      if quote then .abortq
      else bx_scan_items l quote (pos + 1) true count comma fuel
    else
      let c := l.getD pos ' '
      if c = ESCAPE then bx_scan_items l quote (pos + 2) q1 count comma fuel
      else if c = '{' then
        bx_scan_items l quote (pos + 1) q1 (count + 1) comma fuel
      else if c = '}' then
        if count - 1 = 0 then .closed pos comma q1
        else bx_scan_items l quote (pos + 1) q1 (count - 1) comma fuel
      else if c = ',' ∧ count = 1 then
        bx_scan_items l quote (pos + 1) q1 count true fuel
      else bx_scan_items l quote (pos + 1) q1 count comma fuel

/-- The while-not-comma loop of brace_expansion (src/edit.c:2457): find an
opening brace whose group has a top-level comma; the quick memchr check, an
aborted or unbalanced item scan, or running out of braces all end the whole
function with FALSE, before any write to the line.  Returns (prepos,
bracepos, closepos, term, quote-at-brace, item-quote-state) of the group to
expand.  The search position strictly advances, so length + 1 fuel units
suffice. -/
def bx_phase1 (l : List Char) :
    Nat → Nat → Bool → Char → Nat →
    Option (Nat × Nat × Nat × Char × Bool × Bool)
  | 0, _, _, _, _ => none
  | fuel + 1, pos, quote, term, prepos =>
    if ¬ (l.drop pos).contains '{' then none
    else
      match bx_find_open l pos quote term prepos (l.length + 2) with
      | none => none
      | some (bpos, q, t, pp) =>
        match bx_scan_items l q (bpos + 1) false 1 false (l.length + 2) with
        | .abortq => none
        | .unbalanced => none
        | .closed cpos comma q1 =>
          if comma then some (pp, bpos, cpos, t, q, q1)
          else bx_phase1 l fuel (bpos + 1) q t pp

/-- Postpend scan of brace_expansion (src/edit.c:2521): find the end of the
postpend, skipping over quotes and braces that belong to further groups.
Returns (end position, count, quote, term).  One fuel unit per step. -/
def bx_post_scan (l : List Char) :
    Nat → Int → Bool → Bool → Char → Nat → Nat × Int × Bool × Char
  | pos, count, _, quote, term, 0 => (pos, count, quote, term)
  | pos, count, q1, quote, term, fuel + 1 =>
    if l.length ≤ pos then (pos, count, quote, term)
    else if count ≠ 0 then
      if q1 then
        if is_quote l pos then
          bx_post_scan l (pos + 1) count false quote term fuel
        else bx_post_scan l (pos + 1) count true quote term fuel
      else if is_quote l pos then
        bx_post_scan l (pos + 1) count true quote term fuel
      else if l.getD pos ' ' = ESCAPE then
        bx_post_scan l (pos + 2) count q1 quote term fuel
      else if l.getD pos ' ' = '{' then
        bx_post_scan l (pos + 1) (count + 1) q1 quote term fuel
      else if l.getD pos ' ' = '}' then
        bx_post_scan l (pos + 1) (count - 1) q1 quote term fuel
      else bx_post_scan l (pos + 1) count q1 quote term fuel
    else
      let q := if is_quote l pos then ! quote else quote
      let c := l.getD pos ' '
      if c = ESCAPE then bx_post_scan l (pos + 2) count q1 q term fuel
      else if c = '{' then bx_post_scan l (pos + 1) (count + 1) q1 q term fuel
      else if ! q && BRACE_TERM.contains c then
        (pos, count, q, if term = ' ' then c else term)
      else if ! q && BRACE_STOP.contains c then (pos, count, q, term)
      else bx_post_scan l (pos + 1) count q1 q term fuel

/-- Expansion loop of brace_expansion (src/edit.c:2576): with the opening
brace removed, replace every top-level comma by the postpend copy followed
by the prepend, until the count drops below zero at the original closing
brace.  The C loop has no bounds check; the model stops at the end of the
line where the C code would read past it.  max + length + 2 fuel units keep
the model total. -/
def bx_expand_loop (max : Nat) (pend : List Char) (prepos prelen : Nat) :
    List Char → Nat → Bool → Int → Nat → List Char × Nat
  | l, pos, _, _, 0 => (l, pos)
  | l, pos, quote, count, fuel + 1 =>
    if count < 0 then (l, pos)
    else if pos ≥ l.length then (l, pos)
    else if quote then
      if is_quote l pos then
        bx_expand_loop max pend prepos prelen l (pos + 1) false count fuel
      else bx_expand_loop max pend prepos prelen l (pos + 1) true count fuel
    else if is_quote l pos then
      bx_expand_loop max pend prepos prelen l (pos + 1) true count fuel
    else if l.getD pos ' ' = ESCAPE then
      bx_expand_loop max pend prepos prelen l (pos + 2) quote count fuel
    else if l.getD pos ' ' = '{' then
      bx_expand_loop max pend prepos prelen l (pos + 1) quote (count + 1) fuel
    else if l.getD pos ' ' = '}' then
      if count - 1 < 0 then (l, pos + 1)
      else bx_expand_loop max pend prepos prelen l (pos + 1) quote (count - 1)
             fuel
    else if l.getD pos ' ' = ',' ∧ count = 0 then
      let l1 := (replace_chars max l pos 1 pend).1
      let l2 := (insert_chars max l1 (pos + pend.length)
                  ((l1.drop prepos).take prelen)).1
      bx_expand_loop max pend prepos prelen l2 (pos + pend.length + prelen)
        quote count fuel
    else bx_expand_loop max pend prepos prelen l (pos + 1) quote count fuel

/-- brace_expansion: rewrite the first brace group that has at least two
top-level items into its expansion; returns the new line and whether an
expansion happened (src/edit.c:2442).  All paths that return FALSE occur
before any write to the line, so the line comes back unchanged in that
case. -/
def brace_expansion (max : Nat) (l : List Char) : List Char × Bool :=
  match bx_phase1 l (l.length + 1) 0 false ' ' 0 with
  | none => (l, false)
  | some (pp, bpos, cpos, term, quote, q1) =>
    let post := bx_post_scan l (cpos + 1) 0 q1 quote term (l.length + 2)
    if post.2.2.1 ∨ post.2.1 ≠ 0 then (l, false)
    else
      let postlen := post.1 - (cpos + 1)
      let pend := (l.drop (cpos + 1)).take postlen ++ [post.2.2.2]
      let l1 := remove_chars l bpos 1
      let prelen := bpos - pp
      let r := bx_expand_loop max pend pp prelen l1 bpos false 0
                 (max + l.length + 2)
      (remove_chars r.1 (r.2 - 1) 1, true)

/-- Loop of expand_braces (src/edit.c:2610): keep expanding braces until no
more apply. -/
def expand_braces_go (max : Nat) : List Char → Nat → List Char
  | l, 0 => l
  | l, fuel + 1 =>
    match brace_expansion max l with
    | (l1, true) => expand_braces_go max l1 fuel
    | (l1, false) => l1

/-- expand_braces: brace expansion to a fixed point, then removal of the
escaped brace characters (src/edit.c:2608). -/
def expand_braces (max : Nat) (l : List Char) : List Char :=
  un_escape (some BRACE_ESCAPE)
    (expand_braces_go max l (max + l.length).succ)

-- --------------------------- Word expansions -------------------------------

/-- Loop of the segment-end search in match_ext (src/edit.c:4144): the first
position after pos holding '.', ';' or ':', or the end of the list. -/
def ext_seg_end_go (el : List Char) : Nat → Nat → Nat
  | _, 0 => el.length
  | pos, fuel + 1 =>
    if el.length ≤ pos + 1 then el.length
    else if el.getD (pos + 1) ' ' = '.' ∨ el.getD (pos + 1) ' ' = ';' ∨
            el.getD (pos + 1) ' ' = ':' then pos + 1
    else ext_seg_end_go el (pos + 1) fuel

/-- Segment end in match_ext (src/edit.c:4144). -/
def ext_seg_end (el : List Char) (pos : Nat) : Nat :=
  ext_seg_end_go el pos (el.length + 1)

/-- Loop of match_ext (src/edit.c:4139): does the cnt-character extension
ext occur as one segment of the (semi)colon- or dot-separated extension
list?  The position strictly advances, so length + 1 fuel units suffice.
The assoc_pos bookkeeping (used only by dela) is not modelled. -/
def match_ext_go (ext : List Char) (cnt : Nat) (el : List Char) :
    Nat → Nat → Bool
  | _, 0 => false
  | pos, fuel + 1 =>
    if el.length ≤ pos then false
    else
      let e := ext_seg_end el pos
      if e - pos = cnt ∧ wcsnicmp (el.drop pos) ext cnt = 0 then true
      else if e = el.length then false
      else if el.getD e ' ' ≠ '.' then match_ext_go ext cnt el (e + 1) fuel
      else match_ext_go ext cnt el e fuel

/-- match_ext: is ext, of cnt characters, one of the extensions of the dot-
or (semi)colon-separated list el (src/edit.c:4134)? -/
def match_ext (ext : List Char) (cnt : Nat) (el : List Char) : Bool :=
  match_ext_go ext cnt el 0 (el.length + 1)

/-- find_assoc: search the association list for an extension and promote the
found entry to the head (src/edit.c:3705). -/
def find_assoc : Store → List Char → Nat → Option (Define × Store)
  | [], _, _ => none
  | a :: rest, ext, cnt =>
    if match_ext ext cnt a.name then some (a, rest)
    else match find_assoc rest ext cnt with
         | none => none
         | some (e, rest2) => some (e, a :: rest2)

/-- Backward extension scan of associate (src/edit.c:2654): from the last
character of the first word, walk back to the dot; hitting the word start or
a path character first fails.  fuel = ext + 1 suffices as ext decreases. -/
def ext_scan (l : List Char) (beg : Nat) : Nat → Nat → Nat →
    Option (Nat × Nat)
  | _, _, 0 => none
  | ext, cnt, fuel + 1 =>
    if l.getD ext ' ' = '.' then some (ext, cnt)
    else if ext = beg ∨ l.getD ext ' ' = '/' ∨ l.getD ext ' ' = '\\' ∨
            l.getD ext ' ' = ':' then none
    else ext_scan l beg (ext - 1) (cnt + 1) fuel

/-- Common tail of associate (src/edit.c:2663): remove the alternative
indicator if still present, then insert the association's text and a space
at the start of the line. -/
def associate_fin (max : Nat) (l : List Char) (a : Define) (rest : Store)
    (ext cnt : Nat) (alt : Nat) : List Char × Store × Bool :=
  let l3 := if alt ≠ 0 then remove_chars l (ext + cnt) 1 else l
  let l4 := (insert_chars max l3 0 (a.line.headD [])).1
  let l5 := (insert_chars max l4 (a.line.headD []).length [' ']).1
  (l5, a :: rest, true)

/-- associate: if the first word's extension (or trailing path separator,
optionally followed by the alternative indicator =) is in the association
list, insert its definition and a space at the start of the line
(src/edit.c:2617).  Note that the get_string call can rewrite the first
word's quoting even when no association fires; the C code does not undo
that. -/
def associate (assocs : Store) (max : Nat) (l : List Char) :
    List Char × Store × Bool :=
  let g := get_string false l 0
  let beg := g.1
  let cnt0 := g.2.1
  let l0 := g.2.2.1
  if cnt0 = 0 then (l0, assocs, false)
  else
    let ext0 := beg + cnt0 - 1
    let aec : Nat × Nat × Nat :=
      if cnt0 > 1 ∧ l0.getD ext0 ' ' = '=' then (1, ext0 - 1, cnt0 - 1)
      else (0, ext0, cnt0)
    let alt := aec.1
    let ext := aec.2.1
    let cnt := aec.2.2
    if l0.getD ext ' ' = '/' ∨ l0.getD ext ' ' = '\\' then
      let l1 := l0.set ext '\\'
      match find_define assocs ((l1.drop ext).take (1 + alt)) with
      | none => (l1, assocs, false)
      | some (a, rest) =>
        if cnt > 1 ∧ l1.getD (ext - 1) ' ' ≠ ':' then
          associate_fin max (remove_chars l1 ext (1 + alt)) a rest ext cnt 0
        else associate_fin max l1 a rest ext 1 alt
    else if l0.getD ext ' ' = '.' ∧
            (ext = beg ∨ l0.getD (ext - 1) ' ' = '.') then (l0, assocs, false)
    else
      match ext_scan l0 beg ext 1 (ext + 1) with
      | none => (l0, assocs, false)
      | some (e2, c2) =>
        match find_assoc assocs (l0.drop e2) (c2 + alt) with
        | none => (l0, assocs, false)
        | some (a, rest) => associate_fin max l0 a rest e2 c2 alt

/-- expand_symbol: if the first word is a symbol, replace it with its
definition, keeping a separating space when the word was terminated by a
non-blank delimiter (src/edit.c:2673). -/
def expand_symbol (syms : Store) (max : Nat) (l : List Char) :
    List Char × Store × Bool :=
  let sym := skip_blank l 0
  let e := skip_nondelim l sym
  match find_define syms ((l.drop sym).take (e - sym)) with
  | none => (l, syms, false)
  | some (s, rest) =>
    let sp := e < l.length ∧ ¬ isblank (l.getD e ' ')
    let content := s.line.headD []
    let l1 := (replace_chars max l sym (e - sym) content).1
    let l2 := if sp then (insert_chars max l1 (sym + content.length) [' ']).1
              else l1
    (l2, s :: rest, true)

-- --------------------------- Macro expansion -------------------------------

/-- The do-while of get_macro_line (src/edit.c:2333): run get_string with
keep = TRUE over the saved arguments line n times, returning the last
(start, cnt); n ≥ 1 always. -/
def args_iter (args : List Char) : Nat → Nat → Nat → Nat × Nat
  | arg, cnt, 0 => (arg, cnt)
  | arg, cnt, n + 1 =>
    let g := get_string true args (arg + cnt)
    if n = 0 then (g.1, g.2.1) else args_iter args g.1 g.2.1 n

/-- Argument-substitution loop of get_macro_line (src/edit.c:2319): replace
percent-digit, percent-star and percent-digit-star with the pieces of the
saved arguments line.  Fuel as for expand_vars_go. -/
def subst_args_go (max : Nat) (args : List Char) :
    List Char → Nat → Nat → List Char
  | l, _, 0 => l
  | l, pos, fuel + 1 =>
    if pos ≥ l.length then l
    else if l.getD pos ' ' = ESCAPE then
      subst_args_go max args l (pos + 2) fuel
    else if l.getD pos ' ' = VARIABLE ∧ pos + 1 < l.length ∧
            (l.getD (pos + 1) ' ' = '*' ∨
             ('0' ≤ l.getD (pos + 1) ' ' ∧ l.getD (pos + 1) ' ' ≤ '9')) then
      let p := pos + 1
      let argnum := if l.getD p ' ' = '*' then 2
                    else (l.getD p ' ').toNat - Char.toNat '0' + 1
      let ac := args_iter args 0 0 argnum
      let pv : Nat × Nat :=
        if l.getD p ' ' ≠ '*' ∧ p + 1 < l.length ∧ l.getD (p + 1) ' ' = '*'
        then (p + 1, 3) else (p, 2)
      let cnt2 := if l.getD pv.1 ' ' = '*' then args.length - ac.1 else ac.2
      let l1 := (replace_chars max l (pv.1 - pv.2 + 1) pv.2
                  ((args.drop ac.1).take cnt2)).1
      subst_args_go max args l1 (pv.1 + 1) fuel
    else subst_args_go max args l (pos + 1) fuel

/-- get_macro_line: make the line the next line of the executing macro,
substituting the recorded arguments, un-escaping ARG_ESCAPE, and popping
the macro frame when its lines are exhausted (src/edit.c:2312).  The stack
frame reuses the Define shape: name holds the saved arguments line, line
the remaining macro lines. -/
def get_macro_line (max : Nat) (stk : List Define) (l : List Char) :
    List Char × List Define :=
  match stk with
  | [] => (l, stk)
  | top :: rest =>
    let l0 := (copy_chars max (top.line.headD [])).1
    let l1 := subst_args_go max top.name l0 0 (max + l0.length + 2)
    let l2 := un_escape (some ARG_ESCAPE) l1
    let remaining := top.line.tail
    if remaining.isEmpty then (l2, rest)
    else (l2, (⟨top.name, remaining⟩ : Define) :: rest)

/-- expand_mac models expand_macro (src/edit.c:2697): if the first word is a
macro, push a frame holding a copy of the line (for the arguments) and the
macro's lines, and load the first macro line.  alloc is the add_define
allocation outcome; on failure nothing fires (though the macro list has
been reordered by the lookup, exactly as in C). -/
def expand_mac (macs : Store) (max : Nat) (stk : List Define) (alloc : Bool)
    (l : List Char) : List Char × Store × List Define × Bool :=
  let mac := skip_blank l 0
  let e := skip_nondelim l mac
  match find_define macs ((l.drop mac).take (e - mac)) with
  | none => (l, macs, stk, false)
  | some (m, rest) =>
    if alloc then
      let glr := get_macro_line max ((⟨l, m.line⟩ : Define) :: stk) l
      (glr.1, m :: rest, glr.2, true)
    else (l, m :: rest, stk, false)

-- ------------------------- The expansion pipeline --------------------------

/-- The expansion state: the three definition stores and the stack of
executing macros (src/edit.c:547). -/
structure EState where
  syms : Store
  macs : Store
  assocs : Store
  mstk : List Define
deriving DecidableEq, Repr

/-- The inner expansion loop of MyReadConsoleW (src/edit.c:4266): each
iteration strips a leading '@' (with dosify), stops after stripping a
leading ignore character, expands braces, and repeats while an association,
symbol or macro substitution fired.  Control+Break is modelled as not
pending.  One fuel unit per iteration. -/
def expansion_loop (ignore_char : Char) (max : Nat) :
    Nat → EState → List Char → List Char × EState
  | 0, st, l => (l, st)
  | fuel + 1, st, l =>
    let l1 := if l ≠ [] ∧ l.headD ' ' = '@' then dosify (l.drop 1) else l
    if l1 ≠ [] ∧ l1.headD ' ' = ignore_char then (l1.drop 1, st)
    else
      let l2 := expand_braces max l1
      let ar := associate st.assocs max l2
      let st1 : EState := ⟨st.syms, st.macs, ar.2.1, st.mstk⟩
      if ar.2.2 then expansion_loop ignore_char max fuel st1 ar.1
      else
        let sr := expand_symbol st1.syms max ar.1
        let st2 : EState := ⟨sr.2.1, st1.macs, st1.assocs, st1.mstk⟩
        if sr.2.2 then expansion_loop ignore_char max fuel st2 sr.1
        else
          let mr := expand_mac st2.macs max st2.mstk true sr.1
          let st3 : EState := ⟨st2.syms, mr.2.1, st2.assocs, mr.2.2.1⟩
          if mr.2.2.2 then expansion_loop ignore_char max fuel st3 mr.1
          else (mr.1, st3)

/-- process_line: the per-line expansion pipeline of MyReadConsoleW for a
line that is not an internal command: the inner expansion loop followed by
the submitted-line variable substitution pass expand_vars(FALSE)
(src/edit.c:4264).  Command splitting (multi_cmd) and internal-command
dispatch are modelled separately. -/
def process_line (ignore_char : Char) (envf : List Char → List Char)
    (max : Nat) (st : EState) (l : List Char) : List Char × EState :=
  let r := expansion_loop ignore_char max (max + l.length + 9).succ st l
  let v := expand_vars false envf max r.2.syms r.1
  (v.1, ⟨v.2, r.2.macs, r.2.assocs, r.2.mstk⟩)

-- ----------------------- Text buffer operation model -----------------------

/-- An abstract Text Buffer operation, per the specification's setAll /
insert / remove / replace vocabulary for copy_chars, insert_chars,
remove_chars and replace_chars. -/
inductive BufOp where
  | setAll (s : List Char)
  | insert (pos : Nat) (s : List Char)
  | remove (pos cnt : Nat)
  | replace (pos old : Nat) (s : List Char)
deriving DecidableEq, Repr

/-- Apply one buffer operation, returning the new line and whether the
audible alert fired. -/
def applyOp (max : Nat) (l : List Char) : BufOp → List Char × Bool
  | .setAll s => copy_chars max s
  | .insert p s => insert_chars max l p s
  | .remove p c => (remove_chars l p c, false)
  | .replace p o s => replace_chars max l p o s

/-- Apply a sequence of buffer operations. -/
def applyOps (max : Nat) : List Char → List BufOp → List Char
  | l, [] => l
  | l, op :: ops => applyOps max (applyOp max l op).1 ops

/-- In-bounds condition of one operation, matching the C callers' contract
(positions within the current length). -/
def opWF (len : Nat) : BufOp → Bool
  | .setAll _ => true
  | .insert p _ => p ≤ len
  | .remove p c => p + c ≤ len
  | .replace p o _ => p + o ≤ len

/-- In-bounds condition of a whole operation sequence. -/
def opsWF (max : Nat) : List Char → List BufOp → Bool
  | _, [] => true
  | l, op :: ops => opWF l.length op && opsWF max (applyOp max l op).1 ops

-- --------------------- Specification-side definitions ----------------------

/-- One combined step of the history ring (for the search direction). -/
def ring_step (back : Bool) (n : Nat) (p : HPos) : HPos :=
  if back then ring_prev n p else ring_next n p

/-- Specification-side visit order of the history search: the k nodes
reached by stepping from a given node. -/
def ring_visits (back : Bool) (n : Nat) : HPos → Nat → List HPos
  | _, 0 => []
  | p, k + 1 => ring_step back n p :: ring_visits back n (ring_step back n p) k

/-- Specification-side prefix test: the entry's text begins, ignoring case,
with the buffer's first len characters. -/
def begins_nicase (e buf : List Char) (len : Nat) : Bool :=
  len ≤ e.length && (e.take len).map Char.toLower =
    (buf.take len).map Char.toLower

/-- Specification-side match at a ring position: only entries can match;
the sentinel never does. -/
def spec_hist_match (entries : List (List Char)) (buf : List Char)
    (len : Nat) : HPos → Bool
  | none => false
  | some i => begins_nicase (entries.getD i []) buf len

/-- A ring position is a node of the ring: the sentinel or an entry index
below the entry count. -/
def hpos_ok (n : Nat) : HPos → Bool
  | none => true
  | some i => i < n

/-- Numeric code of a ring position: entries map to their index, the
sentinel to n, so the ring of n + 1 nodes becomes 0..n. -/
def hpos_idx (n : Nat) : HPos → Nat
  | none => n
  | some i => i

/-- Specification-side walk from the claim's words for brace groups: from
just after an opening brace, is there a comma at nesting depth 1 outside
quotes before the group closes?  Quotes follow the program's is_quote
convention and the escape character hides the next character.  One fuel
unit per step, in lock-step with bx_scan_items. -/
def spec_group_comma (l : List Char) : Nat → Bool → Int → Nat → Bool
  | _, _, _, 0 => false
  | pos, q, depth, fuel + 1 =>
    if l.length ≤ pos then false
    else if q then
      if is_quote l pos then spec_group_comma l (pos + 1) false depth fuel
      else spec_group_comma l (pos + 1) true depth fuel
    else if is_quote l pos then spec_group_comma l (pos + 1) true depth fuel
    else if l.getD pos ' ' = ESCAPE then
      spec_group_comma l (pos + 2) q depth fuel
    else if l.getD pos ' ' = '{' then
      spec_group_comma l (pos + 1) q (depth + 1) fuel
    else if l.getD pos ' ' = '}' then
      if depth = 1 then false
      else spec_group_comma l (pos + 1) q (depth - 1) fuel
    else if l.getD pos ' ' = ',' ∧ depth = 1 then true
    else spec_group_comma l (pos + 1) q depth fuel

/-- Specification-side reading of "a brace group with at least two
alternatives": some opening brace whose group has a top-level comma. -/
def spec_has_top_comma (l : List Char) : Bool :=
  (List.range l.length).any
    (fun i => l.getD i ' ' = '{' &&
      spec_group_comma l (i + 1) false 1 (l.length + 2))

/-- Case-folded names of a definition store, in order. -/
def lower_names (st : Store) : List (List Char) :=
  st.map (fun d => d.name.map Char.toLower)

/-- Specification-side store invariant: within each of the symbol and
macro-text stores names are unique (up to case), and no name occurs in
both. -/
def StoreInv (syms macs : Store) : Prop :=
  (lower_names syms).Nodup ∧ (lower_names macs).Nodup ∧
    ∀ n ∈ lower_names syms, n ∉ lower_names macs

instance (syms macs : Store) : Decidable (StoreInv syms macs) := by
  unfold StoreInv; infer_instance

-- ===========================================================================
--                                  Theorems
-- ===========================================================================

-- ----------------------------- Shared lemmas -------------------------------

theorem wcsnicmp_self (a : List Char) (n : Nat) : wcsnicmp a a n = 0 := by
  induction a generalizing n with
  | nil => cases n <;> rfl
  | cons c cs ih =>
    cases n with
    | zero => rfl
    | succ m => simpa [wcsnicmp] using ih m

theorem wcsnicmp_eq_zero_iff (a b : List Char) (n : Nat)
    (ha : n ≤ a.length) (hb : n ≤ b.length) :
    wcsnicmp a b n = 0 ↔
      (a.take n).map Char.toLower = (b.take n).map Char.toLower := by
  induction n generalizing a b with
  | zero => simp [wcsnicmp]
  | succ m ih =>
    cases a with
    | nil => simp at ha
    | cons x xs =>
      cases b with
      | nil => simp at hb
      | cons y ys =>
        simp only [wcsnicmp, List.take_succ_cons, List.map_cons]
        by_cases h : x.toLower = y.toLower
        · simp only [if_pos h, h, List.cons.injEq, true_and]
          exact ih xs ys (by simpa using ha) (by simpa using hb)
        · rw [if_neg h]
          constructor
          · intro hc; split_ifs at hc <;> simp at hc
          · intro hc
            exact absurd (List.cons.inj hc).1 h

theorem perm_cons_erase_beq {α} [BEq α] [LawfulBEq α] {a : α} {l : List α}
    (h : a ∈ l) : l.Perm (a :: l.erase a) := by
  induction l with
  | nil => simp at h
  | cons x xs ih =>
    by_cases hx : (x == a) = true
    · have hxa : x = a := eq_of_beq hx
      subst hxa
      simp [List.erase_cons_head]
    · have hmem : a ∈ xs := by
        rcases List.mem_cons.mp h with h1 | h1
        · exact absurd (by simp [h1]) hx
        · exact h1
      rw [List.erase_cons_tail]
      · exact ((ih hmem).cons x).trans (List.Perm.swap a x _)
      · simpa using hx

theorem copy_chars_length_le (max : Nat) (s : List Char) :
    (copy_chars max s).1.length ≤ max ∨ s.length ≤ max := by
  simp only [copy_chars]
  split <;> simp <;> omega

theorem insert_chars_length_le (max : Nat) (l : List Char) (pos : Nat)
    (s : List Char) (hl : l.length ≤ max) (hp : pos ≤ l.length) :
    (insert_chars max l pos s).1.length ≤ max := by
  simp only [insert_chars, List.length_append, List.length_take,
    List.length_drop]
  split <;> omega

theorem applyOp_length_le (max : Nat) (l : List Char) (op : BufOp)
    (hl : l.length ≤ max) (hwf : opWF l.length op = true) :
    (applyOp max l op).1.length ≤ max := by
  cases op with
  | setAll s =>
    simp only [applyOp, copy_chars]
    split <;> simp <;> omega
  | insert p s =>
    simp only [opWF, decide_eq_true_eq] at hwf
    exact insert_chars_length_le max l p s hl hwf
  | remove p c =>
    simp only [opWF, decide_eq_true_eq] at hwf
    simp only [applyOp, remove_chars, List.length_append, List.length_take,
      List.length_drop]
    omega
  | replace p o s =>
    simp only [opWF, decide_eq_true_eq] at hwf
    simp only [applyOp, replace_chars]
    split
    · simp only [List.length_append, List.length_take, List.length_drop]
      omega
    · apply insert_chars_length_le
      · simp only [List.length_append, List.length_take, List.length_drop]
        omega
      · simp only [List.length_append, List.length_take, List.length_drop]
        omega

-- --------------------------------- C3 --------------------------------------

/-- C3: for every sequence of in-bounds setAll/insert/remove/replace
operations on the Text Buffer, the length never exceeds the capacity; an
insert or setAll whose requested size would exceed the capacity truncates
the inserted text to fit and triggers the audible alert (the operations are
total functions, so no hard error is possible). -/
theorem C3_buffer_capacity_invariant :
    (∀ max l ops, l.length ≤ max → opsWF max l ops = true →
       (applyOps max l ops).length ≤ max) ∧
    (∀ max l pos s, l.length ≤ max → pos ≤ l.length →
       l.length + s.length > max →
       (insert_chars max l pos s).2 = true ∧
       (insert_chars max l pos s).1.length = max) ∧
    (∀ max s, s.length > max →
       copy_chars max s = (s.take max, true) ∧ (s.take max).length = max) := by
  refine ⟨?_, ?_, ?_⟩
  · intro max l ops
    induction ops generalizing l with
    | nil => intro hl _; simpa [applyOps] using hl
    | cons op ops ih =>
      intro hl hwf
      simp only [opsWF, Bool.and_eq_true] at hwf
      exact ih (applyOp max l op).1 (applyOp_length_le max l op hl hwf.1)
        hwf.2
  · intro max l pos s hl hp hover
    have hbell : l.length + s.length > max := hover
    constructor
    · simp only [insert_chars]
      simp [hbell]
    · simp only [insert_chars, List.length_append, List.length_take,
        List.length_drop]
      simp only [if_pos hbell]
      omega
  · intro max s hs
    refine ⟨?_, by simp; omega⟩
    simp only [copy_chars, if_pos hs]

/-- Witness for C3 at concrete inputs: a two-operation sequence stays within
capacity, and an overflowing insert truncates with the alert. -/
theorem C3_buffer_capacity_invariant_witness :
    (applyOps 3 ['a'] [BufOp.insert 1 ['b', 'c'],
       BufOp.insert 0 ['d', 'e']]).length ≤ 3 ∧
    (insert_chars 3 ['a', 'b'] 1 ['x', 'y']).2 = true ∧
    (insert_chars 3 ['a', 'b'] 1 ['x', 'y']).1.length = 3 := by
  refine ⟨C3_buffer_capacity_invariant.1 3 ['a'] _ (by decide) (by decide),
    ?_, ?_⟩
  · exact (C3_buffer_capacity_invariant.2.1 3 ['a', 'b'] 1 ['x', 'y']
      (by decide) (by decide) (by decide)).1
  · exact (C3_buffer_capacity_invariant.2.1 3 ['a', 'b'] 1 ['x', 'y']
      (by decide) (by decide) (by decide)).2

-- --------------------------------- C1 --------------------------------------

/-- C1: the history add operation is a no-op below the minimum stored
length; re-submitting an existing line promotes it (a permutation of the
history ending in that line, with the stored copy removed from its old
place rather than duplicated); a new line arriving with the history at the
configured maximum evicts the oldest entry before being appended; and the
abc/xyz/abc scenario ends with exactly [xyz, abc], oldest first. -/
theorem C1_history_add :
    (∀ alloc min_length histmax txt entries, txt.length < min_length →
       add_to_history alloc min_length histmax txt entries = entries) ∧
    (∀ min_length histmax txt entries, ¬ txt.length < min_length →
       txt ∈ entries →
       add_to_history true min_length histmax txt entries =
         (entries.reverse.erase txt).reverse ++ [txt] ∧
       (add_to_history true min_length histmax txt entries).Perm entries ∧
       (add_to_history true min_length histmax txt entries).getLast? =
         some txt) ∧
    (∀ min_length histmax txt entries, ¬ txt.length < min_length →
       txt ∉ entries → histmax ≠ 0 → entries.length = histmax →
       add_to_history true min_length histmax txt entries =
         entries.drop 1 ++ [txt]) ∧
    add_to_history true 1 50 ['a', 'b', 'c']
      (add_to_history true 1 50 ['x', 'y', 'z']
        (add_to_history true 1 50 ['a', 'b', 'c'] [])) =
      [['x', 'y', 'z'], ['a', 'b', 'c']] := by
  refine ⟨?_, ?_, ?_, by decide⟩
  · intro alloc min_length histmax txt entries h
    simp [add_to_history, h]
  · intro min_length histmax txt entries hlen hmem
    have heq : add_to_history true min_length histmax txt entries =
        (entries.reverse.erase txt).reverse ++ [txt] := by
      simp [add_to_history, hlen, hmem]
    refine ⟨heq, ?_, ?_⟩
    · rw [heq]
      have h1 : txt ∈ entries.reverse := by simpa using hmem
      have p1 : ((entries.reverse.erase txt).reverse ++ [txt]).Perm
          (entries.reverse.erase txt ++ [txt]) :=
        ((entries.reverse.erase txt).reverse_perm).append_right [txt]
      have p2 : (entries.reverse.erase txt ++ [txt]).Perm
          (txt :: entries.reverse.erase txt) :=
        List.perm_append_singleton txt _
      have p3 : (txt :: entries.reverse.erase txt).Perm entries.reverse :=
        (perm_cons_erase_beq h1).symm
      exact ((p1.trans p2).trans p3).trans entries.reverse_perm
    · rw [heq, List.getLast?_concat]
  · intro min_length histmax txt entries hlen hmem hmax hfull
    simp [add_to_history, hlen, hmem, hmax, hfull]

/-- Witness for C1 at concrete inputs: promoting a duplicate and evicting
the oldest entry when full. -/
theorem C1_history_add_witness :
    (add_to_history true 1 50 ['a'] [['a'], ['b']] =
       ([['a'], ['b']].reverse.erase ['a']).reverse ++ [['a']] ∧
     (add_to_history true 1 50 ['a'] [['a'], ['b']]).Perm [['a'], ['b']] ∧
     (add_to_history true 1 50 ['a'] [['a'], ['b']]).getLast? =
       some ['a']) ∧
    add_to_history true 1 2 ['c'] [['a'], ['b']] =
      [['a'], ['b']].drop 1 ++ [['c']] := by
  constructor
  · exact C1_history_add.2.1 1 50 ['a'] [['a'], ['b']] (by decide)
      (by decide)
  · exact C1_history_add.2.2.1 1 2 ['c'] [['a'], ['b']] (by decide)
      (by decide) (by decide) (by decide)

-- --------------------------------- C2 --------------------------------------

/-- C2 counterexample: the claim states an internal-command line is never
added to the history.  Submitting the line defs (with the default minimum
stored length 1) is recognised and dispatched, the handler (here a no-op,
as defs has no arguments) does not touch the history, yet the history
contains the line after processing — because edit_line's Enter handler
pushes every sufficiently long line before the pipeline runs
(src/edit.c:1131), and only delh removes its own entry. -/
theorem C2_internal_history_counterexample :
    internal_cmd_rec ['d', 'e', 'f', 's'] = true ∧
    add_to_history true 1 50 ['d', 'e', 'f', 's'] [] =
      [['d', 'e', 'f', 's']] ∧
    execute_defs [] [] ['d', 'e', 'f', 's']
      (skip_blank ['d', 'e', 'f', 's'] 4) = ([], []) ∧
    ['d', 'e', 'f', 's'] ∈ add_to_history true 1 50 ['d', 'e', 'f', 's'] [] := by
  decide

/-- C2 amended: a line whose first token is exactly four characters
matching one of the 18 internal command names (case-insensitively) is
recognised and dispatched to the Internal Command Interpreter — the read
loop then fetches another line instead of returning this one to the host —
but the line IS added to the history at submit time like any other line of
sufficient length; only the delh command removes its own just-submitted
entry. -/
theorem C2_internal_dispatch_amended :
    (∀ c ∈ internal, internal_cmd_rec c.name = true) ∧
    (∀ c ∈ internal, internal_cmd_rec (c.name.map Char.toUpper) = true) ∧
    (∀ min_length histmax txt entries, ¬ txt.length < min_length →
       txt ∈ add_to_history true min_length histmax txt entries) ∧
    (∀ entries l pos, pos < l.length → l ∉ execute_delh entries l pos) := by
  refine ⟨by decide, by decide, ?_, ?_⟩
  · intro min_length histmax txt entries hlen
    simp only [add_to_history, if_neg hlen]
    split
    · exact List.mem_append_right _ (by simp)
    · simp
  · intro entries l pos hpos hmem
    have hne : ¬ pos = l.length := by omega
    simp only [execute_delh, if_neg hne] at hmem
    have hpred := (List.mem_filter.mp hmem).2
    have hcont : contains_nicase l (l.drop pos) = true := by
      simp only [contains_nicase, Bool.and_eq_true, decide_eq_true_eq,
        List.any_eq_true, List.mem_range]
      refine ⟨by simp, pos, ?_, by simp [wcsnicmp_self]⟩
      simp only [List.length_drop]
      omega
    simp [hcont] at hpred

/-- Witness for C2 amended at concrete inputs. -/
theorem C2_internal_dispatch_amended_witness :
    internal_cmd_rec ['d', 'e', 'f', 'a'] = true ∧
    internal_cmd_rec ['D', 'E', 'F', 'A'] = true ∧
    ['l', 's', 't', 'h'] ∈ add_to_history true 1 50 ['l', 's', 't', 'h'] [] ∧
    ['d', 'e', 'l', 'h', ' ', 'z'] ∉
      execute_delh [['q'], ['d', 'e', 'l', 'h', ' ', 'z']]
        ['d', 'e', 'l', 'h', ' ', 'z'] 5 := by
  refine ⟨?_, ?_, ?_, ?_⟩
  · exact C2_internal_dispatch_amended.1 ⟨['d', 'e', 'f', 'a'], 0⟩
      (by decide)
  · exact C2_internal_dispatch_amended.2.1 ⟨['d', 'e', 'f', 'a'], 0⟩
      (by decide)
  · exact C2_internal_dispatch_amended.2.2.1 1 50 ['l', 's', 't', 'h'] []
      (by decide)
  · exact C2_internal_dispatch_amended.2.2.2
      [['q'], ['d', 'e', 'l', 'h', ' ', 'z']]
      ['d', 'e', 'l', 'h', ' ', 'z'] 5 (by decide)

-- ------------------------- Lemmas for find_define --------------------------

theorem name_match_iff (d : Define) (nm : List Char) :
    name_match d nm = true ↔
      d.name.map Char.toLower = nm.map Char.toLower := by
  simp only [name_match, Bool.and_eq_true, decide_eq_true_eq]
  constructor
  · rintro ⟨hlen, hz⟩
    have := (wcsnicmp_eq_zero_iff d.name nm nm.length hlen.ge le_rfl).mp hz
    simpa [List.take_of_length_le, le_of_eq hlen, hlen] using this
  · intro h
    have hlen : d.name.length = nm.length := by
      have := congrArg List.length h
      simpa using this
    refine ⟨hlen, ?_⟩
    rw [wcsnicmp_eq_zero_iff d.name nm nm.length hlen.ge le_rfl]
    simpa [List.take_of_length_le, le_of_eq hlen, hlen] using h

theorem find_define_none_iff (st : Store) (nm : List Char) :
    find_define st nm = none ↔
      (nm.map Char.toLower) ∉ lower_names st := by
  induction st with
  | nil => simp [find_define, lower_names]
  | cons d rest ih =>
    simp only [find_define, lower_names, List.map_cons, List.mem_cons]
    by_cases h : name_match d nm = true
    · simp only [if_pos h]
      have hd := (name_match_iff d nm).mp h
      simp [hd]
    · simp only [if_neg h]
      have hne : ¬ nm.map Char.toLower = d.name.map Char.toLower := by
        intro hc; exact h ((name_match_iff d nm).mpr hc.symm)
      cases hfd : find_define rest nm with
      | none =>
        have hnot := ih.mp hfd
        simp only [lower_names] at hnot
        simp [hne, hnot]
      | some p =>
        obtain ⟨e, r2⟩ := p
        have hnn : ¬ find_define rest nm = none := by simp [hfd]
        have hmem : (nm.map Char.toLower) ∈ lower_names rest := by
          by_contra hc; exact hnn (ih.mpr hc)
        simp only [lower_names] at hmem
        simp [hmem]

theorem find_define_some_decomp (st : Store) (nm : List Char) (d : Define)
    (rest : Store) (h : find_define st nm = some (d, rest)) :
    ∃ pre post, st = pre ++ d :: post ∧ rest = pre ++ post ∧
      name_match d nm = true := by
  induction st generalizing rest with
  | nil => simp [find_define] at h
  | cons x xs ih =>
    simp only [find_define] at h
    by_cases hx : name_match x nm = true
    · rw [if_pos hx] at h
      obtain ⟨h1, h2⟩ := Prod.mk.injEq .. ▸ (Option.some.inj h)
      exact ⟨[], xs, by simp [← h1], by simp [← h2], h1 ▸ hx⟩
    · rw [if_neg hx] at h
      cases hfd : find_define xs nm with
      | none => rw [hfd] at h; exact absurd h (by simp)
      | some p =>
        rw [hfd] at h
        obtain ⟨e, r2⟩ := p
        obtain ⟨h1, h2⟩ := Prod.mk.injEq .. ▸ (Option.some.inj h)
        obtain ⟨pre, post, hst, hrest, hnm⟩ := ih r2 (h1 ▸ hfd)
        exact ⟨x :: pre, post, by simp [hst], by simp [← h2, hrest], hnm⟩

theorem lookup_del_facts (st : Store) (nm : List Char)
    (hnd : (lower_names st).Nodup) (d : Define) (rest : Store)
    (h : find_define st nm = some (d, rest)) :
    d.name.map Char.toLower = nm.map Char.toLower ∧
    (lower_names rest).Nodup ∧ (nm.map Char.toLower) ∉ lower_names rest ∧
    ∀ n ∈ lower_names rest, n ∈ lower_names st := by
  obtain ⟨pre, post, hst, hrest, hmm⟩ := find_define_some_decomp st nm d rest h
  have hd := (name_match_iff d nm).mp hmm
  subst hst; subst hrest
  have hmid : lower_names (pre ++ d :: post) =
      lower_names pre ++ d.name.map Char.toLower :: lower_names post := by
    simp [lower_names]
  rw [hmid] at hnd
  have h2 := List.nodup_middle.mp hnd
  obtain ⟨hnotin, htail⟩ := List.nodup_cons.mp h2
  have hrl : lower_names (pre ++ post) =
      lower_names pre ++ lower_names post := by simp [lower_names]
  refine ⟨hd, by rw [hrl]; exact htail, ?_, ?_⟩
  · rw [hrl, ← hd]; exact hnotin
  · intro n hn
    rw [hrl] at hn
    rw [hmid]
    rcases List.mem_append.mp hn with hn | hn
    · exact List.mem_append_left _ hn
    · exact List.mem_append_right _ (List.mem_cons_of_mem _ hn)

theorem execute_defs_inv (syms macs : Store) (l : List Char) (pos : Nat)
    (hinv : StoreInv syms macs) :
    StoreInv (execute_defs syms macs l pos).1
      (execute_defs syms macs l pos).2 ∧
    (¬ pos = l.length →
     ¬ (skip_nondelim l pos < l.length ∧
        ¬ isblank (l.getD (skip_nondelim l pos) ' ')) →
     ((l.drop pos).take (skip_nondelim l pos - pos)).map Char.toLower ∉
       lower_names (execute_defs syms macs l pos).2) := by
  obtain ⟨hs, hm, hdisj⟩ := hinv
  by_cases hpos : pos = l.length
  · refine ⟨?_, fun h _ => absurd hpos h⟩
    simpa [execute_defs, hpos] using ⟨hs, hm, hdisj⟩
  by_cases hval : skip_nondelim l pos < l.length ∧
      ¬ isblank (l.getD (skip_nondelim l pos) ' ')
  · refine ⟨?_, fun _ h => absurd hval h⟩
    simp only [execute_defs, if_neg hpos, if_pos hval]
    exact ⟨hs, hm, hdisj⟩
  simp only [execute_defs, if_neg hpos, if_neg hval]
  have hmacs1 :
      (lower_names (match find_define macs
        ((l.drop pos).take (skip_nondelim l pos - pos)) with
       | some (_, rest) => rest
       | none => macs)).Nodup ∧
      ((l.drop pos).take (skip_nondelim l pos - pos)).map Char.toLower ∉
        lower_names (match find_define macs
          ((l.drop pos).take (skip_nondelim l pos - pos)) with
         | some (_, rest) => rest
         | none => macs) ∧
      ∀ n ∈ lower_names (match find_define macs
          ((l.drop pos).take (skip_nondelim l pos - pos)) with
         | some (_, rest) => rest
         | none => macs), n ∈ lower_names macs := by
    cases hfd : find_define macs
        ((l.drop pos).take (skip_nondelim l pos - pos)) with
    | none =>
      exact ⟨hm, (find_define_none_iff _ _).mp hfd, fun n hn => hn⟩
    | some p =>
      obtain ⟨d, rest⟩ := p
      obtain ⟨_, h1, h2, h3⟩ := lookup_del_facts macs _ hm d rest hfd
      exact ⟨h1, h2, h3⟩
  obtain ⟨hm1, hnin1, hsub1⟩ := hmacs1
  cases hfs : find_define syms
      ((l.drop pos).take (skip_nondelim l pos - pos)) with
  | none =>
    have hnsym := (find_define_none_iff _ _).mp hfs
    by_cases hdef : skip_blank l (skip_nondelim l pos) = l.length
    · simp only [hfs, if_pos hdef]
      exact ⟨⟨hs, hm1, fun n hn hn2 => hdisj n hn (hsub1 n hn2)⟩,
        fun _ _ => hnin1⟩
    · simp only [hfs, if_neg hdef]
      refine ⟨⟨?_, hm1, ?_⟩, fun _ _ => hnin1⟩
      · simp only [lower_names, List.map_cons]
        exact List.nodup_cons.mpr ⟨hnsym, hs⟩
      · intro n hn hn2
        simp only [lower_names, List.map_cons, List.mem_cons] at hn
        rcases hn with hn | hn
        · exact (hn ▸ hnin1) hn2
        · exact hdisj n hn (hsub1 n hn2)
  | some p =>
    obtain ⟨d, rest⟩ := p
    obtain ⟨hdL, hnd, hnin, hsub⟩ := lookup_del_facts syms _ hs d rest hfs
    by_cases hdef : skip_blank l (skip_nondelim l pos) = l.length
    · simp only [hfs, if_pos hdef]
      exact ⟨⟨hnd, hm1, fun n hn hn2 =>
        hdisj n (hsub n hn) (hsub1 n hn2)⟩, fun _ _ => hnin1⟩
    · simp only [hfs, if_neg hdef]
      refine ⟨⟨?_, hm1, ?_⟩, fun _ _ => hnin1⟩
      · simp only [lower_names, List.map_cons]
        refine List.nodup_cons.mpr ⟨?_, hnd⟩
        rw [hdL]
        exact hnin
      · intro n hn hn2
        simp only [lower_names, List.map_cons, List.mem_cons] at hn
        rcases hn with hn | hn
        · exact ((hn.trans hdL) ▸ hnin1) hn2
        · exact hdisj n (hsub n hn) (hsub1 n hn2)

theorem execute_defm_inv (syms macs : Store) (l : List Char) (pos : Nat)
    (inputs : List (List Char)) (hinv : StoreInv syms macs) :
    StoreInv (execute_defm syms macs l pos inputs).1
      (execute_defm syms macs l pos inputs).2 ∧
    (¬ (skip_nondelim l pos < l.length ∧
        ¬ isblank (l.getD (skip_nondelim l pos) ' ')) →
     ((l.drop pos).take (skip_nondelim l pos - pos)).map Char.toLower ∉
       lower_names (execute_defm syms macs l pos inputs).1) := by
  obtain ⟨hs, hm, hdisj⟩ := hinv
  by_cases hval : skip_nondelim l pos < l.length ∧
      ¬ isblank (l.getD (skip_nondelim l pos) ' ')
  · refine ⟨?_, fun h => absurd hval h⟩
    simp only [execute_defm, if_pos hval]
    exact ⟨hs, hm, hdisj⟩
  simp only [execute_defm, if_neg hval]
  have hsyms1 :
      (lower_names (match find_define syms
        ((l.drop pos).take (skip_nondelim l pos - pos)) with
       | some (_, rest) => rest
       | none => syms)).Nodup ∧
      ((l.drop pos).take (skip_nondelim l pos - pos)).map Char.toLower ∉
        lower_names (match find_define syms
          ((l.drop pos).take (skip_nondelim l pos - pos)) with
         | some (_, rest) => rest
         | none => syms) ∧
      ∀ n ∈ lower_names (match find_define syms
          ((l.drop pos).take (skip_nondelim l pos - pos)) with
         | some (_, rest) => rest
         | none => syms), n ∈ lower_names syms := by
    cases hfd : find_define syms
        ((l.drop pos).take (skip_nondelim l pos - pos)) with
    | none =>
      exact ⟨hs, (find_define_none_iff _ _).mp hfd, fun n hn => hn⟩
    | some p =>
      obtain ⟨d, rest⟩ := p
      obtain ⟨_, h1, h2, h3⟩ := lookup_del_facts syms _ hs d rest hfd
      exact ⟨h1, h2, h3⟩
  obtain ⟨hs1, hnin1, hsub1⟩ := hsyms1
  have hmfacts :
      ((match find_define macs
        ((l.drop pos).take (skip_nondelim l pos - pos)) with
       | some (d, rest) => (d.name, rest)
       | none => (((l.drop pos).take (skip_nondelim l pos - pos)),
           macs)).1).map Char.toLower =
        ((l.drop pos).take (skip_nondelim l pos - pos)).map Char.toLower ∧
      (lower_names (match find_define macs
        ((l.drop pos).take (skip_nondelim l pos - pos)) with
       | some (d, rest) => (d.name, rest)
       | none => (((l.drop pos).take (skip_nondelim l pos - pos)),
           macs)).2).Nodup ∧
      ((l.drop pos).take (skip_nondelim l pos - pos)).map Char.toLower ∉
        lower_names (match find_define macs
          ((l.drop pos).take (skip_nondelim l pos - pos)) with
         | some (d, rest) => (d.name, rest)
         | none => (((l.drop pos).take (skip_nondelim l pos - pos)),
             macs)).2 ∧
      ∀ n ∈ lower_names (match find_define macs
          ((l.drop pos).take (skip_nondelim l pos - pos)) with
         | some (d, rest) => (d.name, rest)
         | none => (((l.drop pos).take (skip_nondelim l pos - pos)),
             macs)).2, n ∈ lower_names macs := by
    cases hfd : find_define macs
        ((l.drop pos).take (skip_nondelim l pos - pos)) with
    | none =>
      exact ⟨rfl, hm, (find_define_none_iff _ _).mp hfd, fun n hn => hn⟩
    | some p =>
      obtain ⟨d, rest⟩ := p
      obtain ⟨hdL, h1, h2, h3⟩ := lookup_del_facts macs _ hm d rest hfd
      exact ⟨hdL, h1, h2, h3⟩
  obtain ⟨hnmL, hm2, hnin2, hsub2⟩ := hmfacts
  by_cases hdef : skip_blank l (skip_nondelim l pos) ≠ l.length
  · simp only [if_pos hdef]
    refine ⟨⟨hs1, ?_, ?_⟩, fun _ => hnin1⟩
    · simp only [lower_names, List.map_cons]
      exact List.nodup_cons.mpr ⟨by rw [hnmL]; exact hnin2, hm2⟩
    · intro n hn
      simp only [lower_names, List.map_cons, List.mem_cons]
      rintro (hn2 | hn2)
      · exact ((hn2.trans hnmL) ▸ hnin1) hn
      · exact hdisj n (hsub1 n hn) (hsub2 n hn2)
  · simp only [if_neg hdef]
    by_cases hemp : (inputs.takeWhile (fun li => ¬ is_endm li)).isEmpty
    · simp only [if_pos hemp]
      exact ⟨⟨hs1, hm2, fun n hn hn2 =>
        hdisj n (hsub1 n hn) (hsub2 n hn2)⟩, fun _ => hnin1⟩
    · simp only [if_neg hemp]
      refine ⟨⟨hs1, ?_, ?_⟩, fun _ => hnin1⟩
      · simp only [lower_names, List.map_cons]
        exact List.nodup_cons.mpr ⟨by rw [hnmL]; exact hnin2, hm2⟩
      · intro n hn
        simp only [lower_names, List.map_cons, List.mem_cons]
        rintro (hn2 | hn2)
        · exact ((hn2.trans hnmL) ▸ hnin1) hn
        · exact hdisj n (hsub1 n hn) (hsub2 n hn2)

-- --------------------------------- C6 --------------------------------------

/-- C6: the defs and defm commands keep every name in at most one of the
symbol and macro-text stores: the store invariant (unique names within each
store, no name in both) is preserved by every defs and every defm command,
defining a symbol removes the name from the macro store, and defining a
macro removes it from the symbol store; redefinition replaces content in
place, which is what preservation of name uniqueness expresses. -/
theorem C6_name_exclusivity :
    ∀ syms macs l pos inputs, StoreInv syms macs →
      StoreInv (execute_defs syms macs l pos).1
        (execute_defs syms macs l pos).2 ∧
      StoreInv (execute_defm syms macs l pos inputs).1
        (execute_defm syms macs l pos inputs).2 ∧
      (¬ pos = l.length →
       ¬ (skip_nondelim l pos < l.length ∧
          ¬ isblank (l.getD (skip_nondelim l pos) ' ')) →
       ((l.drop pos).take (skip_nondelim l pos - pos)).map Char.toLower ∉
         lower_names (execute_defs syms macs l pos).2) ∧
      (¬ (skip_nondelim l pos < l.length ∧
          ¬ isblank (l.getD (skip_nondelim l pos) ' ')) →
       ((l.drop pos).take (skip_nondelim l pos - pos)).map Char.toLower ∉
         lower_names (execute_defm syms macs l pos inputs).1) := by
  intro syms macs l pos inputs hinv
  exact ⟨(execute_defs_inv syms macs l pos hinv).1,
    (execute_defm_inv syms macs l pos inputs hinv).1,
    (execute_defs_inv syms macs l pos hinv).2,
    (execute_defm_inv syms macs l pos inputs hinv).2⟩

/-- Witness for C6 at concrete inputs: defining symbol foo (as defs would,
from argument text "foo b") when foo exists as a macro. -/
theorem C6_name_exclusivity_witness :
    StoreInv
      (execute_defs [] [⟨['f', 'o', 'o'], [['x']]⟩]
        ['f', 'o', 'o', ' ', 'b'] 0).1
      (execute_defs [] [⟨['f', 'o', 'o'], [['x']]⟩]
        ['f', 'o', 'o', ' ', 'b'] 0).2 ∧
    ((['f', 'o', 'o', ' ', 'b'].drop 0).take
        (skip_nondelim ['f', 'o', 'o', ' ', 'b'] 0 - 0)).map Char.toLower ∉
      lower_names (execute_defs [] [⟨['f', 'o', 'o'], [['x']]⟩]
        ['f', 'o', 'o', ' ', 'b'] 0).2 := by
  constructor
  · exact (C6_name_exclusivity [] [⟨['f', 'o', 'o'], [['x']]⟩]
      ['f', 'o', 'o', ' ', 'b'] 0 [] (by decide)).1
  · exact (C6_name_exclusivity [] [⟨['f', 'o', 'o'], [['x']]⟩]
      ['f', 'o', 'o', ' ', 'b'] 0 [] (by decide)).2.2.1 (by decide) (by decide)

-- --------------------------- Lemmas for C7 ---------------------------------

theorem ring_next_ok (n : Nat) (p : HPos) (h : hpos_ok n p = true) :
    hpos_ok n (ring_next n p) = true := by
  cases p with
  | none =>
    by_cases hn : n = 0
    · simp [ring_next, hn, hpos_ok]
    · simp only [ring_next, if_neg hn, hpos_ok, decide_eq_true_eq]
      omega
  | some i =>
    simp only [hpos_ok, decide_eq_true_eq] at h
    by_cases hi : i + 1 < n
    · simp [ring_next, hi, hpos_ok]
    · simp [ring_next, hi, hpos_ok]

theorem ring_prev_ok (n : Nat) (p : HPos) (h : hpos_ok n p = true) :
    hpos_ok n (ring_prev n p) = true := by
  cases p with
  | none =>
    by_cases hn : n = 0
    · simp [ring_prev, hn, hpos_ok]
    · simp only [ring_prev, if_neg hn, hpos_ok, decide_eq_true_eq]
      omega
  | some i =>
    simp only [hpos_ok, decide_eq_true_eq] at h
    by_cases hi : i = 0
    · simp [ring_prev, hi, hpos_ok]
    · simp only [ring_prev, if_neg hi, hpos_ok, decide_eq_true_eq]
      omega

theorem ring_step_ok (back : Bool) (n : Nat) (p : HPos)
    (h : hpos_ok n p = true) : hpos_ok n (ring_step back n p) = true := by
  cases back with
  | false => simpa [ring_step] using ring_next_ok n p h
  | true => simpa [ring_step] using ring_prev_ok n p h

theorem ring_iterate_ok (back : Bool) (n : Nat) (p : HPos)
    (h : hpos_ok n p = true) (j : Nat) :
    hpos_ok n ((ring_step back n)^[j] p) = true := by
  induction j with
  | zero => simpa using h
  | succ m ih =>
    rw [Function.iterate_succ_apply']
    exact ring_step_ok back n _ ih

theorem zmod_self_add_one (n : Nat) : (n : ZMod (n + 1)) + 1 = 0 := by
  have h := ZMod.natCast_self (n + 1)
  push_cast at h
  linear_combination h

theorem ring_next_idx (n : Nat) (p : HPos) (h : hpos_ok n p = true) :
    ((hpos_idx n (ring_next n p) : Nat) : ZMod (n + 1)) =
      (hpos_idx n p : ZMod (n + 1)) + 1 := by
  cases p with
  | none =>
    by_cases hn : n = 0
    · subst hn; decide
    · simp only [ring_next, if_neg hn, hpos_idx, Nat.cast_zero]
      linear_combination - zmod_self_add_one n
  | some i =>
    simp only [hpos_ok, decide_eq_true_eq] at h
    by_cases hi : i + 1 < n
    · simp only [ring_next, if_pos hi, hpos_idx]
      push_cast
      ring
    · have hin : i + 1 = n := by omega
      simp only [ring_next, if_neg hi, hpos_idx]
      rw [← hin]
      push_cast
      ring

theorem ring_prev_idx (n : Nat) (p : HPos) (h : hpos_ok n p = true) :
    ((hpos_idx n (ring_prev n p) : Nat) : ZMod (n + 1)) =
      (hpos_idx n p : ZMod (n + 1)) - 1 := by
  cases p with
  | none =>
    by_cases hn : n = 0
    · subst hn; decide
    · simp only [ring_prev, if_neg hn, hpos_idx]
      rw [Nat.cast_sub (Nat.one_le_iff_ne_zero.mpr hn)]
      push_cast
      ring
  | some i =>
    simp only [hpos_ok, decide_eq_true_eq] at h
    by_cases hi : i = 0
    · subst hi
      have hp : ring_prev n (some 0) = none := by simp [ring_prev]
      rw [hp]
      simp only [hpos_idx, Nat.cast_zero]
      linear_combination zmod_self_add_one n
    · simp only [ring_prev, if_neg hi, hpos_idx]
      rw [Nat.cast_sub (Nat.one_le_iff_ne_zero.mpr hi)]
      push_cast
      ring

theorem ring_step_idx (back : Bool) (n : Nat) (p : HPos)
    (h : hpos_ok n p = true) :
    ((hpos_idx n (ring_step back n p) : Nat) : ZMod (n + 1)) =
      (hpos_idx n p : ZMod (n + 1)) + (if back then -1 else 1) := by
  cases back with
  | false =>
    show ((hpos_idx n (ring_next n p) : Nat) : ZMod (n + 1)) =
      (hpos_idx n p : ZMod (n + 1)) + 1
    exact ring_next_idx n p h
  | true =>
    show ((hpos_idx n (ring_prev n p) : Nat) : ZMod (n + 1)) =
      (hpos_idx n p : ZMod (n + 1)) + (-1)
    rw [ring_prev_idx n p h]
    ring

theorem ring_iterate_idx (back : Bool) (n : Nat) (p : HPos)
    (h : hpos_ok n p = true) (j : Nat) :
    ((hpos_idx n ((ring_step back n)^[j] p) : Nat) : ZMod (n + 1)) =
      (hpos_idx n p : ZMod (n + 1)) + j * (if back then -1 else 1) := by
  induction j with
  | zero => simp
  | succ m ih =>
    rw [Function.iterate_succ_apply',
      ring_step_idx back n _ (ring_iterate_ok back n p h m), ih]
    push_cast
    ring

theorem ring_iterate_ne_start (back : Bool) (n : Nat) (start : HPos)
    (h : hpos_ok n start = true) (j : Nat) (h1 : 1 ≤ j) (h2 : j ≤ n) :
    (ring_step back n)^[j] start ≠ start := by
  intro hc
  have hidx := ring_iterate_idx back n start h j
  rw [hc] at hidx
  have hz : (j : ZMod (n + 1)) * (if back then -1 else 1) = 0 := by
    linear_combination - hidx
  have hj0 : (j : ZMod (n + 1)) = 0 := by
    cases back with
    | false => simpa using hz
    | true => simpa using hz
  have hdvd : (n + 1) ∣ j := by
    haveI : NeZero (n + 1) := ⟨Nat.succ_ne_zero n⟩
    exact (ZMod.natCast_zmod_eq_zero_iff_dvd j (n + 1)).mp hj0
  have := Nat.le_of_dvd (by omega) hdvd
  omega

theorem ring_visits_length (back : Bool) (n : Nat) (p : HPos) (k : Nat) :
    (ring_visits back n p k).length = k := by
  induction k generalizing p with
  | zero => rfl
  | succ m ih => simp [ring_visits, ih]

theorem search_go_eq_find (entries : List (List Char)) (buf : List Char)
    (len : Nat) (back : Bool) (start : HPos) :
    ∀ k h, (∀ j, 1 ≤ j → j < k →
        (ring_step back entries.length)^[j] h ≠ start) →
      search_history_go entries buf len back start h k =
        (ring_visits back entries.length h k).find?
          (hist_match entries buf len) := by
  intro k
  induction k with
  | zero => intro h _; rfl
  | succ m ih =>
    intro h hside
    have hstep : (if back then ring_prev entries.length h
        else ring_next entries.length h) = ring_step back entries.length h :=
      rfl
    simp only [search_history_go, ring_visits, hstep, List.find?_cons]
    by_cases hmt : hist_match entries buf len
        (ring_step back entries.length h) = true
    · simp [hmt]
    · rw [Bool.not_eq_true] at hmt
      by_cases hps : ring_step back entries.length h = start
      · cases m with
        | zero =>
          have hms : hist_match entries buf len start = false := hps ▸ hmt
          simp [hmt, hps, hms, ring_visits]
        | succ m2 =>
          exact absurd (by simpa using hps) (hside 1 le_rfl (by omega))
      · have hrec := ih (ring_step back entries.length h)
          (fun j hj1 hj2 => by
            have hj := hside (j + 1) (by omega) (by omega)
            rw [Function.iterate_succ_apply] at hj
            exact hj)
        simp [hmt, hps, hrec]

theorem hist_match_eq_spec (entries : List (List Char)) (buf : List Char)
    (len : Nat) (h1 : 1 ≤ len) (h2 : len ≤ buf.length) (p : HPos) :
    hist_match entries buf len p = spec_hist_match entries buf len p := by
  cases p with
  | none =>
    have hlt : ¬ ((0 : Nat) ≥ len) := by omega
    simp [hist_match, spec_hist_match, ring_line, hlt]
  | some i =>
    rw [Bool.eq_iff_iff]
    simp only [hist_match, spec_hist_match, ring_line, begins_nicase,
      Bool.and_eq_true, decide_eq_true_eq, ge_iff_le]
    constructor
    · rintro ⟨ha, hb⟩
      exact ⟨ha, (wcsnicmp_eq_zero_iff _ buf len ha h2).mp hb⟩
    · rintro ⟨ha, hb⟩
      exact ⟨ha, (wcsnicmp_eq_zero_iff _ buf len ha h2).mpr hb⟩

-- --------------------------------- C7 --------------------------------------

/-- C7 counterexample: with prefix length 0 the claim requires the first
visited matching entry (here the single entry, which begins with the empty
prefix), but the scan's match test also succeeds on the sentinel node
(length 0 ≥ 0 and an empty comparison), so searching forward from the entry
returns the sentinel — neither "no match" nor an entry. -/
theorem C7_search_counterexample :
    search_history [['a']] [] 0 false (some 0) = some none ∧
    (ring_visits false 1 (some 0) 2).find?
      (spec_hist_match [['a']] [] 0) = some (some 0) ∧
    some (none : HPos) ≠ some (some 0) := by decide

/-- C7 amended: for every history, buffer, direction and valid starting
node, and every prefix length of at least one character (within the
buffer), the search visits the ring nodes in order starting immediately
after (before, when backward) the starting node, wrapping around exactly
once back to it, and returns the first visited entry whose text begins,
case-insensitively, with the buffer's first prefixLength characters, or
none when no visited entry matches; with prefix length 0 the sentinel node
itself can be returned instead (see the counterexample). -/
theorem C7_search_visit_order :
    ∀ entries buf len back hist, 1 ≤ len → len ≤ buf.length →
      hpos_ok entries.length hist = true →
      search_history entries buf len back hist =
        (ring_visits back entries.length hist (entries.length + 1)).find?
          (spec_hist_match entries buf len) := by
  intro entries buf len back hist h1 h2 hok
  have hfn : hist_match entries buf len = spec_hist_match entries buf len :=
    funext (hist_match_eq_spec entries buf len h1 h2)
  have hside : ∀ j, 1 ≤ j → j < entries.length + 1 →
      (ring_step back entries.length)^[j] hist ≠ hist :=
    fun j hj1 hj2 =>
      ring_iterate_ne_start back entries.length hist hok j hj1 (by omega)
  rw [search_history,
    search_go_eq_find entries buf len back hist (entries.length + 1) hist
      hside, hfn]

/-- Witness for C7 at concrete inputs: a backward search with a two-entry
history and a two-character prefix. -/
theorem C7_search_visit_order_witness :
    search_history [['a', 'b'], ['c']] ['A', 'B'] 2 true none =
      (ring_visits true 2 none 3).find?
        (spec_hist_match [['a', 'b'], ['c']] ['A', 'B'] 2) :=
  C7_search_visit_order [['a', 'b'], ['c']] ['A', 'B'] 2 true none
    (by decide) (by decide) (by decide)

-- --------------------------------- C4 --------------------------------------

theorem expand_vars_go_env_irrel (envf envf2 : List Char → List Char)
    (max : Nat) : ∀ fuel l syms pos start,
    expand_vars_go false envf max l syms pos start fuel =
      expand_vars_go false envf2 max l syms pos start fuel := by
  intro fuel
  induction fuel with
  | zero => intro l syms pos start; rfl
  | succ m ih =>
    intro l syms pos start
    simp only [expand_vars_go]
    repeat' split
    all_goals first
      | exact absurd (by assumption : false = true) (by simp)
      | rfl
      | apply ih

theorem expand_vars_env_irrel (envf envf2 : List Char → List Char)
    (max : Nat) (syms : Store) (l : List Char) :
    expand_vars false envf max syms l =
      expand_vars false envf2 max syms l := by
  simp only [expand_vars]
  rw [expand_vars_go_env_irrel envf envf2 max]

theorem process_line_env_irrel (ic : Char)
    (envf envf2 : List Char → List Char) (max : Nat) (st : EState)
    (l : List Char) :
    process_line ic envf max st l = process_line ic envf2 max st l := by
  simp only [process_line]
  rw [expand_vars_env_irrel envf envf2 max]

/-- C4 counterexample: the claim states that on a submitted line a %name%
token resolves first as an environment variable; but the submitted-line
pass is expand_vars(FALSE) (src/edit.c:4286), which never consults the
environment: with the environment defining a as X and no symbols, the
submitted-line pass leaves the token literal, while the interactive
(TRUE) pass yields X. -/
theorem C4_env_counterexample :
    (expand_vars false (fun nm => if nm = ['a'] then ['X'] else []) 100 []
      ['%', 'a', '%']).1 = ['%', 'a', '%'] ∧
    (expand_vars true (fun nm => if nm = ['a'] then ['X'] else []) 100 []
      ['%', 'a', '%']).1 = ['X'] ∧
    (['%', 'a', '%'] : List Char) ≠ ['X'] := by decide

/-- C4 amended: in the variable-substitution pass run on a submitted line,
%name% tokens are resolved as symbols only — the pass is independent of the
environment, which is consulted only by the interactive inline-substitution
pass; a resolved token is replaced in place, and a token that resolves as
nothing is left as literal text with the scan position advanced past it
(its closing % can serve as the next token's opener). -/
theorem C4_var_substitution_amended :
    (∀ envf envf2 max syms l,
       expand_vars false envf max syms l =
         expand_vars false envf2 max syms l) ∧
    (∀ envf : List Char → List Char,
       (expand_vars false envf 100
         [⟨['s', 'y', 'm'],
           [['-', 'e', 'x', 'p', 'a', 'n', 's', 'i', 'o', 'n', '-']]⟩]
         ['%', 's', 'y', 'm', '%']).1 =
       ['-', 'e', 'x', 'p', 'a', 'n', 's', 'i', 'o', 'n', '-']) ∧
    (∀ envf : List Char → List Char,
       (expand_vars false envf 100 [] ['%', 'z', 'z', '%']).1 =
         ['%', 'z', 'z', '%']) ∧
    (∀ envf : List Char → List Char,
       (expand_vars false envf 100
         [⟨['s', 'y', 'm'],
           [['-', 'e', 'x', 'p', 'a', 'n', 's', 'i', 'o', 'n', '-']]⟩]
         ['%', 'a', '%', 's', 'y', 'm', '%']).1 =
       ['%', 'a', '-', 'e', 'x', 'p', 'a', 'n', 's', 'i', 'o', 'n', '-']) := by
  refine ⟨expand_vars_env_irrel, ?_, ?_, ?_⟩ <;> intro envf <;>
    rw [expand_vars_env_irrel envf (fun _ => [])] <;> decide

-- --------------------------------- C5 --------------------------------------

/-- C5: with symbol sym defined as -expansion-, the submitted-line
variable-substitution pass on %sym%sym% yields exactly -expansion-sym%:
the first %sym% token is consumed and replaced, and the trailing % is left
as a literal character; the same result comes out of the whole expansion
pipeline. -/
theorem C5_sym_sym_scenario :
    ∀ envf : List Char → List Char,
      (expand_vars false envf 1022
        [⟨['s', 'y', 'm'],
          [['-', 'e', 'x', 'p', 'a', 'n', 's', 'i', 'o', 'n', '-']]⟩]
        ['%', 's', 'y', 'm', '%', 's', 'y', 'm', '%']).1 =
      ['-', 'e', 'x', 'p', 'a', 'n', 's', 'i', 'o', 'n', '-',
       's', 'y', 'm', '%'] ∧
      (process_line ' ' envf 1022
        ⟨[⟨['s', 'y', 'm'],
           [['-', 'e', 'x', 'p', 'a', 'n', 's', 'i', 'o', 'n', '-']]⟩],
         [], [], []⟩
        ['%', 's', 'y', 'm', '%', 's', 'y', 'm', '%']).1 =
      ['-', 'e', 'x', 'p', 'a', 'n', 's', 'i', 'o', 'n', '-',
       's', 'y', 'm', '%'] := by
  intro envf
  constructor
  · rw [expand_vars_env_irrel envf (fun _ => [])]
    decide
  · rw [process_line_env_irrel ' ' envf (fun _ => [])]
    decide

-- --------------------------------- C9 --------------------------------------

theorem multi_cmd_go_alloc_fail (l : List Char) (mcmd : Option (List Char)) :
    ∀ fuel pos quote,
      multi_cmd_go false l mcmd pos quote fuel = (l, mcmd) ∨
      multi_cmd_go false l mcmd pos quote fuel =
        multi_cmd_go true l mcmd pos quote fuel := by
  intro fuel
  induction fuel with
  | zero => intro pos quote; exact Or.inl rfl
  | succ m ih =>
    intro pos quote
    simp only [multi_cmd_go]
    repeat' split
    all_goals first
      | exact absurd (by assumption : false = true) (by simp)
      | exact Or.inl rfl
      | exact Or.inr rfl
      | apply ih

/-- C9 counterexample: the claim states that on allocation failure the
prior state of the affected store is left intact; but add_to_history evicts
the oldest entry before attempting the allocation (src/edit.c:1621-1625),
so a failed allocation with a full history loses the oldest entry. -/
theorem C9_alloc_counterexample :
    add_to_history false 1 1 ['b'] [['a']] = [] ∧
    ([] : List (List Char)) ≠ [['a']] := by decide

/-- C9 amended: on allocation failure the requested mutation is abandoned
and the program does not crash; for the multi-command split and for adding
a definition record the prior state is fully intact (multi_cmd either
changes nothing, or takes a path that needs no allocation and behaves as
with a successful one; add_define returns the store unchanged); for the
history add the new entry is not added, and the history is unchanged
unless it was at its configured maximum with a new line, in which case the
oldest entry has already been evicted and stays evicted. -/
theorem C9_alloc_failure_amended :
    (∀ l mcmd, multi_cmd false l mcmd = (l, mcmd) ∨
       multi_cmd false l mcmd = multi_cmd true l mcmd) ∧
    (∀ st nm, add_define false st nm = (none, st)) ∧
    (∀ min_length histmax txt entries, ¬ txt.length < min_length →
       txt ∉ entries →
       (¬ (histmax ≠ 0 ∧ entries.length = histmax) →
          add_to_history false min_length histmax txt entries = entries) ∧
       (histmax ≠ 0 ∧ entries.length = histmax →
          add_to_history false min_length histmax txt entries =
            entries.drop 1)) := by
  refine ⟨?_, fun st nm => rfl, ?_⟩
  · intro l mcmd
    simp only [multi_cmd]
    split
    · exact Or.inl rfl
    · exact multi_cmd_go_alloc_fail l mcmd (l.length + 1) 0 false
  · intro min_length histmax txt entries hlen hmem
    constructor
    · intro hfull
      simp [add_to_history, hlen, hmem, hfull]
    · intro hfull
      simp [add_to_history, hlen, hmem, hfull]

/-- Witness for C9 at concrete inputs: a failed history allocation below
and at the configured maximum. -/
theorem C9_alloc_failure_amended_witness :
    (multi_cmd false ['a', CMDSEP, 'b'] none = (['a', CMDSEP, 'b'], none) ∨
     multi_cmd false ['a', CMDSEP, 'b'] none =
       multi_cmd true ['a', CMDSEP, 'b'] none) ∧
    add_define false [] ['x'] = (none, []) ∧
    add_to_history false 1 50 ['b'] [['a']] = [['a']] ∧
    add_to_history false 1 1 ['b'] [['a']] = [['a']].drop 1 := by
  refine ⟨C9_alloc_failure_amended.1 ['a', CMDSEP, 'b'] none,
    C9_alloc_failure_amended.2.1 [] ['x'], ?_, ?_⟩
  · exact (C9_alloc_failure_amended.2.2 1 50 ['b'] [['a']] (by decide)
      (by decide)).1 (by decide)
  · exact (C9_alloc_failure_amended.2.2 1 1 ['b'] [['a']] (by decide)
      (by decide)).2 (by decide)

-- --------------------------------- C8 --------------------------------------

/-- C8 counterexample: the expansion pipeline is not idempotent even on
its own output: a fully quoted run of eight escape characters loses half of
them to each pass's escape removal (expand_braces removes escaped
BRACE_ESCAPE characters inside quotes, expand_vars removes escaped
VAR_ESCAPE characters inside quotes), so the second run's output differs
from its input although no association, symbol or macro rule fires
(all stores are empty). -/
theorem C8_pipeline_counterexample :
    (process_line ' ' (fun _ => []) 100
      (process_line ' ' (fun _ => []) 100 ⟨[], [], [], []⟩
        ['"', '^', '^', '^', '^', '^', '^', '^', '^', '"']).2
      (process_line ' ' (fun _ => []) 100 ⟨[], [], [], []⟩
        ['"', '^', '^', '^', '^', '^', '^', '^', '^', '"']).1).1 ≠
    (process_line ' ' (fun _ => []) 100 ⟨[], [], [], []⟩
      ['"', '^', '^', '^', '^', '^', '^', '^', '^', '"']).1 := by decide

/-- C8 amended: the pipeline is idempotent at a line all of whose passes
leave it unchanged: if the line does not begin with '@' or the ignore
character, the brace-expansion step (including its escape removal) leaves
it unchanged, no association, symbol or macro rule fires — each returning
the line, its store and the macro stack unchanged — and the submitted-line
variable-substitution pass leaves it unchanged, then the pipeline returns
the line and state unchanged, and hence a second run produces a line
identical to its input.  Without the escape-character proviso the claim
fails (see the counterexample). -/
theorem C8_pipeline_fixed_point :
    ∀ ic envf max st l,
      (l = [] ∨ l.headD ' ' ≠ '@') →
      (l = [] ∨ l.headD ' ' ≠ ic) →
      expand_braces max l = l →
      associate st.assocs max l = (l, st.assocs, false) →
      expand_symbol st.syms max l = (l, st.syms, false) →
      expand_mac st.macs max st.mstk true l = (l, st.macs, st.mstk, false) →
      expand_vars false envf max st.syms l = (l, st.syms) →
      process_line ic envf max st l = (l, st) ∧
      process_line ic envf max (process_line ic envf max st l).2
        (process_line ic envf max st l).1 =
        process_line ic envf max st l := by
  intro ic envf max st l h1 h2 hbr hassoc hsym hmac hvars
  have hc1 : ¬ (l ≠ [] ∧ l.headD ' ' = '@') := by
    rcases h1 with h1 | h1
    · simp [h1]
    · exact fun hc => h1 hc.2
  have hc2 : ¬ (l ≠ [] ∧ l.headD ' ' = ic) := by
    rcases h2 with h2 | h2
    · simp [h2]
    · exact fun hc => h2 hc.2
  have hmain : process_line ic envf max st l = (l, st) := by
    simp only [process_line]
    rw [expansion_loop]
    simp only [if_neg hc1, if_neg hc2, hbr, hassoc, hsym, hmac]
    simp [hvars]
  exact ⟨hmain, by rw [hmain]; exact hmain⟩

/-- Witness for C8 at a concrete fixed point: the line ab with empty
stores. -/
theorem C8_pipeline_fixed_point_witness :
    process_line ' ' (fun _ => []) 10 ⟨[], [], [], []⟩ ['a', 'b'] =
      (['a', 'b'], (⟨[], [], [], []⟩ : EState)) :=
  (C8_pipeline_fixed_point ' ' (fun _ => []) 10 ⟨[], [], [], []⟩ ['a', 'b']
    (Or.inr (by decide)) (Or.inr (by decide)) (by decide) (by decide)
    (by decide) (by decide) (by decide)).1

theorem bx_find_open_brace (l : List Char) :
    ∀ fuel pos quote term prepos bpos q t pp,
      bx_find_open l pos quote term prepos fuel = some (bpos, q, t, pp) →
      bpos < l.length ∧ l.getD bpos ' ' = '{' := by
  intro fuel
  induction fuel with
  | zero =>
    intro pos quote term prepos bpos q t pp h
    exact absurd h (by simp [bx_find_open])
  | succ n ih =>
    intro pos quote term prepos bpos q t pp h
    simp only [bx_find_open] at h
    by_cases hlen : l.length ≤ pos
    · rw [if_pos hlen] at h
      exact absurd h (by simp)
    rw [if_neg hlen] at h
    by_cases hesc : l.getD pos ' ' = ESCAPE
    · rw [if_pos hesc] at h
      exact ih _ _ _ _ _ _ _ _ h
    rw [if_neg hesc] at h
    by_cases hbr : l.getD pos ' ' = '{'
    · rw [if_pos hbr] at h
      simp only [Option.some.injEq, Prod.mk.injEq] at h
      obtain ⟨h1, -⟩ := h
      subst h1
      exact ⟨not_le.mp hlen, hbr⟩
    rw [if_neg hbr] at h
    repeat' split at h
    all_goals exact ih _ _ _ _ _ _ _ _ h

theorem bx_scan_closed_comma (l : List Char) (quote : Bool) :
    ∀ fuel pos q1 count comma cpos q2,
      bx_scan_items l quote pos q1 count comma fuel = .closed cpos true q2 →
      comma = true ∨ spec_group_comma l pos q1 count fuel = true := by
  intro fuel
  induction fuel with
  | zero =>
    intro pos q1 count comma cpos q2 h
    simp [bx_scan_items] at h
  | succ n ih =>
    intro pos q1 count comma cpos q2 h
    simp only [bx_scan_items] at h
    by_cases hlen : l.length ≤ pos
    · rw [if_pos hlen] at h
      exact BxScan.noConfusion h
    rw [if_neg hlen] at h
    cases q1 with
    | true =>
      rw [if_pos rfl] at h
      by_cases hq : is_quote l pos = true
      · rw [if_pos hq] at h
        rcases ih _ _ _ _ _ _ h with hc | hs
        · exact Or.inl hc
        · refine Or.inr ?_
          rw [spec_group_comma, if_neg hlen, if_pos rfl, if_pos hq]
          exact hs
      · rw [if_neg hq] at h
        rcases ih _ _ _ _ _ _ h with hc | hs
        · exact Or.inl hc
        · refine Or.inr ?_
          rw [spec_group_comma, if_neg hlen, if_pos rfl, if_neg hq]
          exact hs
    | false =>
      rw [if_neg (by simp)] at h
      by_cases hq : is_quote l pos = true
      · rw [if_pos hq] at h
        by_cases hquo : quote = true
        · rw [if_pos hquo] at h
          exact BxScan.noConfusion h
        · rw [if_neg hquo] at h
          rcases ih _ _ _ _ _ _ h with hc | hs
          · exact Or.inl hc
          · refine Or.inr ?_
            rw [spec_group_comma, if_neg hlen, if_neg (by simp), if_pos hq]
            exact hs
      · rw [if_neg hq] at h
        by_cases hesc : l.getD pos ' ' = ESCAPE
        · rw [if_pos hesc] at h
          rcases ih _ _ _ _ _ _ h with hc | hs
          · exact Or.inl hc
          · refine Or.inr ?_
            rw [spec_group_comma, if_neg hlen, if_neg (by simp), if_neg hq,
              if_pos hesc]
            exact hs
        rw [if_neg hesc] at h
        by_cases hob : l.getD pos ' ' = '{'
        · rw [if_pos hob] at h
          rcases ih _ _ _ _ _ _ h with hc | hs
          · exact Or.inl hc
          · refine Or.inr ?_
            rw [spec_group_comma, if_neg hlen, if_neg (by simp), if_neg hq,
              if_neg hesc, if_pos hob]
            exact hs
        rw [if_neg hob] at h
        by_cases hcb : l.getD pos ' ' = '}'
        · rw [if_pos hcb] at h
          by_cases hone : count - 1 = 0
          · rw [if_pos hone] at h
            injection h with hA hB hC
            exact Or.inl hB
          · rw [if_neg hone] at h
            rcases ih _ _ _ _ _ _ h with hc | hs
            · exact Or.inl hc
            · refine Or.inr ?_
              rw [spec_group_comma, if_neg hlen, if_neg (by simp), if_neg hq,
                if_neg hesc, if_neg hob, if_pos hcb,
                if_neg (show ¬ count = 1 by omega)]
              exact hs
        rw [if_neg hcb] at h
        by_cases hcm : l.getD pos ' ' = ',' ∧ count = 1
        · refine Or.inr ?_
          rw [spec_group_comma, if_neg hlen, if_neg (by simp), if_neg hq,
            if_neg hesc, if_neg hob, if_neg hcb, if_pos hcm]
        · rw [if_neg hcm] at h
          rcases ih _ _ _ _ _ _ h with hc | hs
          · exact Or.inl hc
          · refine Or.inr ?_
            rw [spec_group_comma, if_neg hlen, if_neg (by simp), if_neg hq,
              if_neg hesc, if_neg hob, if_neg hcb, if_neg hcm]
            exact hs

theorem bx_phase1_top_comma (l : List Char) :
    ∀ fuel pos quote term prepos r,
      bx_phase1 l fuel pos quote term prepos = some r →
      spec_has_top_comma l = true := by
  intro fuel
  induction fuel with
  | zero =>
    intro pos quote term prepos r h
    simp [bx_phase1] at h
  | succ n ih =>
    intro pos quote term prepos r h
    simp only [bx_phase1] at h
    by_cases hcon : ¬ ((l.drop pos).contains '{' = true)
    · rw [if_pos hcon] at h
      exact absurd h (by simp)
    rw [if_neg hcon] at h
    cases hfo : bx_find_open l pos quote term prepos (l.length + 2) with
    | none =>
      rw [hfo] at h
      exact absurd h (by simp)
    | some tup =>
      obtain ⟨bpos, q, t, pp⟩ := tup
      simp only [hfo] at h
      cases hsc : bx_scan_items l q (bpos + 1) false 1 false (l.length + 2) with
      | abortq =>
        simp only [hsc] at h
        exact Option.noConfusion h
      | unbalanced =>
        simp only [hsc] at h
        exact Option.noConfusion h
      | closed cpos comma q1 =>
        simp only [hsc] at h
        cases comma with
        | false =>
          rw [if_neg (by simp)] at h
          exact ih _ _ _ _ _ h
        | true =>
          obtain ⟨hb1, hb2⟩ := bx_find_open_brace l _ _ _ _ _ _ _ _ _ hfo
          have hs := (bx_scan_closed_comma l q _ _ _ _ _ _ _ hsc).resolve_left
            (by simp)
          simp only [spec_has_top_comma]
          refine List.any_eq_true.mpr ⟨bpos, List.mem_range.mpr hb1, ?_⟩
          simp only [Bool.and_eq_true, decide_eq_true_eq]
          exact ⟨hb2, hs⟩

/-- C10: brace expansion rewrites a brace group only when the group has at
least two alternatives, that is, a comma at nesting depth 1 outside quotes:
on every line whose brace groups have no such top-level comma,
brace_expansion reports no expansion and returns the line unchanged, so
expand_braces changes the line only by removing escaped brace
characters. -/
theorem C10_brace_no_top_comma (max : Nat) (l : List Char)
    (h : spec_has_top_comma l = false) :
    brace_expansion max l = (l, false) ∧
    expand_braces max l = un_escape (some BRACE_ESCAPE) l := by
  have hp : bx_phase1 l (l.length + 1) 0 false ' ' 0 = none := by
    cases hq : bx_phase1 l (l.length + 1) 0 false ' ' 0 with
    | none => rfl
    | some r =>
      exact absurd (bx_phase1_top_comma l _ _ _ _ _ _ hq) (by rw [h]; simp)
  have hbe : brace_expansion max l = (l, false) := by
    simp only [brace_expansion, hp]
  refine ⟨hbe, ?_⟩
  simp only [expand_braces]
  rw [expand_braces_go, hbe]

/-- Witness for C10 at the claim's own example a\x7bb\x7dc: no top-level
comma, so no expansion takes place. -/
theorem C10_brace_no_top_comma_witness :
    spec_has_top_comma ['a', '{', 'b', '}', 'c'] = false ∧
    (brace_expansion 8 ['a', '{', 'b', '}', 'c'] =
        (['a', '{', 'b', '}', 'c'], false) ∧
      expand_braces 8 ['a', '{', 'b', '}', 'c'] =
        un_escape (some BRACE_ESCAPE) ['a', '{', 'b', '}', 'c']) :=
  ⟨by decide, C10_brace_no_top_comma 8 ['a', '{', 'b', '}', 'c'] (by decide)⟩

end CMDread
